import Mathlib

/-!
Verification of the openlore-api RAG indexing/retrieval pipeline.

This file shallowly embeds the core of the pipeline from the TypeScript
source: the chunker (`chunkText` in `src/lib/rag.ts`), the content-addressed
chunk store with its upsert-on-conflict semantics (`upsertChunk` together
with the unique index `rag_user_source_hash_uidx` of `src/lib/schema.ts`),
the retriever (`retrieveRAGContext`), the LRU embedding cache
(`src/lib/embeddingCache.ts`), and the background job queue
(`enqueueJob` / `processJob` / `processNextJob` / `cleanupOldJobs`).

External collaborators (the tokenizer, the SHA-256 hash, the embedding
model, and pgvector's distance operator) are taken as parameters, matching
the specification's treatment of them as opaque interfaces.
-/

/-- The four chunk source types of the `sourceType` column
(the TypeScript union `"lore" | "character" | "message" | "memory"`). -/
inductive SourceType where
  | lore
  | character
  | message
  | memory
deriving DecidableEq, Repr

/-- Configuration surface consumed by the pipeline (`src/lib/env.ts`).
`ragChunkTokens` and `ragChunkOverlapTokens` are kept as integers so that
arbitrary (even negative) configured values are covered; the reference
defaults are 240 and 40.  `ragMinScore` is the minimum-similarity
threshold (default 0.5) and `ragTopK` the retrieval truncation bound
(default 6). -/
structure RagConfig where
  ragTopK : Nat
  ragChunkTokens : Int
  ragChunkOverlapTokens : Int
  ragMinScore : Rat
deriving Repr

/-- The defaults of `src/lib/env.ts`: `RAG_TOP_K ?? 6`,
`RAG_CHUNK_TOKENS ?? 240`, `RAG_CHUNK_OVERLAP_TOKENS ?? 40`,
`RAG_MIN_SCORE ?? 0.5`. -/
def defaultRagConfig : RagConfig :=
  { ragTopK := 6
    ragChunkTokens := 240
    ragChunkOverlapTokens := 40
    ragMinScore := 1 / 2 }

/-- One chunk produced by the chunker: the decoded window text and the
number of tokens in the window (`{ chunk, tokens }` in `chunkText`). -/
structure Chunk where
  chunk : String
  tokens : Nat
deriving DecidableEq, Repr

/-- The effective maximum window size of `chunkText`:
`Math.max(50, config.ragChunkTokens)`. -/
def effectiveMax (c : RagConfig) : Int :=
  max 50 c.ragChunkTokens

/-- The effective overlap of `chunkText`:
`Math.min(Math.floor(max / 4), config.ragChunkOverlapTokens)`. -/
def effectiveOverlap (c : RagConfig) : Int :=
  min (effectiveMax c / 4) c.ragChunkOverlapTokens

/-- The window advance of the chunking loop, `max - overlap`, as a natural
number.  It is provably positive (`effectiveStep_pos`). -/
def effectiveStep (c : RagConfig) : Nat :=
  (effectiveMax c - effectiveOverlap c).toNat

theorem le_effectiveMax (c : RagConfig) : 50 ≤ effectiveMax c :=
  le_max_left _ _

theorem effectiveOverlap_lt (c : RagConfig) : effectiveOverlap c < effectiveMax c := by
  have h50 := le_effectiveMax c
  have hq : effectiveMax c / 4 < effectiveMax c := by
    omega
  exact lt_of_le_of_lt (min_le_left _ _) hq

theorem effectiveStep_pos (c : RagConfig) : 0 < effectiveStep c := by
  have h := effectiveOverlap_lt c
  unfold effectiveStep
  omega

/-- The window loop of `chunkText` (`src/lib/rag.ts` lines 28-32):
starting at token index `i`, take the slice `ids.slice(i, i + max)`
(empty slices break the loop), emit it decoded, and advance `i` by
`step = max - overlap`.  The positive-step hypothesis is exactly what the
clamping of `max` and `overlap` provides and is what makes the loop
terminate. -/
def chunkLoop {τ : Type} (decode : List τ → String) (ids : List τ)
    (maxTok step : Nat) (hstep : 0 < step) (i : Nat) : List Chunk :=
  if _h : i < ids.length then
    let slice := (ids.drop i).take maxTok
    if slice.isEmpty then []
    else { chunk := decode slice, tokens := slice.length } ::
      chunkLoop decode ids maxTok step hstep (i + step)
  else []
termination_by ids.length - i
decreasing_by omega

/-- `chunkText` of `src/lib/rag.ts`: tokenize, slide a window of the
clamped maximum size advancing by `max - overlap`, and fall back to a
single whole-input chunk when the loop emitted nothing.  The tokenizer
(`encode`/`decode` of `gpt-tokenizer`) is an external dependency and is
passed in, with an arbitrary token type. -/
def chunkText {τ : Type} (encode : String → List τ) (decode : List τ → String)
    (c : RagConfig) (text : String) : List Chunk :=
  let ids := encode text
  let out := chunkLoop decode ids (effectiveMax c).toNat (effectiveStep c)
    (effectiveStep_pos c) 0
  if out.isEmpty then [{ chunk := text, tokens := ids.length }] else out

theorem chunkLoop_eq {τ : Type} (decode : List τ → String) (ids : List τ)
    (maxTok step : Nat) (hstep : 0 < step) (i : Nat) :
    chunkLoop decode ids maxTok step hstep i =
      if i < ids.length then
        let slice := (ids.drop i).take maxTok
        if slice.isEmpty then []
        else { chunk := decode slice, tokens := slice.length } ::
          chunkLoop decode ids maxTok step hstep (i + step)
      else [] := by
  rw [chunkLoop]
  by_cases h : i < ids.length <;> simp [h]

theorem chunkLoop_stop {τ : Type} (decode : List τ → String) (ids : List τ)
    (maxTok step : Nat) (hstep : 0 < step) (i : Nat) (h : ¬ i < ids.length) :
    chunkLoop decode ids maxTok step hstep i = [] := by
  rw [chunkLoop_eq]
  simp [h]

theorem chunkText_eq_ite {τ : Type} (encode : String → List τ)
    (decode : List τ → String) (c : RagConfig) (text : String) :
    chunkText encode decode c text =
      if (chunkLoop decode (encode text) (effectiveMax c).toNat (effectiveStep c)
            (effectiveStep_pos c) 0).isEmpty = true
      then [{ chunk := text, tokens := (encode text).length }]
      else chunkLoop decode (encode text) (effectiveMax c).toNat (effectiveStep c)
            (effectiveStep_pos c) 0 :=
  rfl

theorem chunkText_two_chunks_of_step_lt {τ : Type} (encode : String → List τ)
    (decode : List τ → String) (c : RagConfig) (text : String)
    (h1 : effectiveStep c < (encode text).length) :
    2 ≤ (chunkText encode decode c text).length := by
  have hmax : 0 < (effectiveMax c).toNat := by
    have := le_effectiveMax c
    omega
  have hstep := effectiveStep_pos c
  have hlen0 : 0 < (encode text).length := lt_of_le_of_lt (Nat.zero_le _) h1
  have hne : encode text ≠ [] := List.length_pos.mp hlen0
  have key : 2 ≤ (chunkLoop decode (encode text) (effectiveMax c).toNat
      (effectiveStep c) (effectiveStep_pos c) 0).length := by
    rw [chunkLoop_eq]
    have hslice0 : ((encode text).drop 0).take (effectiveMax c).toNat ≠ [] := by
      simp only [List.drop_zero]
      rw [Ne, List.take_eq_nil_iff]
      push_neg
      exact ⟨by omega, hne⟩
    simp only [hlen0, if_true, List.isEmpty_eq_true, hslice0, if_false]
    rw [chunkLoop_eq]
    have h0step : 0 + effectiveStep c < (encode text).length := by omega
    have hdrop : (encode text).drop (0 + effectiveStep c) ≠ [] := by
      rw [Ne, List.drop_eq_nil_iff]
      omega
    have hslice1 : ((encode text).drop (0 + effectiveStep c)).take
        (effectiveMax c).toNat ≠ [] := by
      rw [Ne, List.take_eq_nil_iff]
      push_neg
      exact ⟨by omega, hdrop⟩
    simp only [h0step, if_true, List.isEmpty_eq_true, hslice1, if_false]
    simp
  rw [chunkText_eq_ite]
  split
  · next h =>
      rw [List.isEmpty_eq_true] at h
      rw [h] at key
      simp at key
  · exact key

/-- C5 (amended): for an input whose token count is both below the
effective maximum window size and at most the window step
`max - overlap`, `chunkText` produces exactly one chunk, and (whenever the
tokenizer round-trips the input) that chunk is the whole input. -/
theorem C5_short_input_single_chunk {τ : Type} (encode : String → List τ)
    (decode : List τ → String) (c : RagConfig) (text : String)
    (hlt : ((encode text).length : Int) < effectiveMax c)
    (hstep : (encode text).length ≤ effectiveStep c)
    (hrt : decode (encode text) = text) :
    chunkText encode decode c text =
      [{ chunk := text, tokens := (encode text).length }] := by
  rcases eq_or_ne (encode text) [] with hnil | hne
  · rw [chunkText_eq_ite, chunkLoop_stop]
    · simp [hnil]
    · simp [hnil]
  · have hlen0 : 0 < (encode text).length := List.length_pos.mpr hne
    have hlemax : (encode text).length ≤ (effectiveMax c).toNat := by omega
    have hloop : chunkLoop decode (encode text) (effectiveMax c).toNat
        (effectiveStep c) (effectiveStep_pos c) 0 =
        [{ chunk := text, tokens := (encode text).length }] := by
      rw [chunkLoop_eq]
      have htake : ((encode text).drop 0).take (effectiveMax c).toNat = encode text := by
        rw [List.drop_zero]
        exact List.take_of_length_le hlemax
      simp only [hlen0, if_true, htake]
      rw [chunkLoop_stop]
      · simp [hne, hrt]
      · omega
    rw [chunkText_eq_ite, hloop]
    simp

/-- A character-level stand-in for the external tokenizer, used for
concrete instances: each character is one token. -/
def charTokens (s : String) : List Char :=
  s.data

/-- Decoder matching `charTokens`. -/
def charDetok (l : List Char) : String :=
  String.mk l

/-- A 201-character input: with the default configuration its token count
(201) lies strictly between the window step (200) and the window size
(240). -/
def longInput : String :=
  String.mk (List.replicate 201 'a')

/-- C5 fails as stated: under the default configuration, `longInput` has
fewer tokens than the configured maximum chunk size, yet `chunkText`
produces two chunks, not one — the loop emits a first window covering the
whole input and then a second overlapping window, because the loop
advances by `max - overlap`, not by `max`. -/
theorem C5_counterexample :
    ((charTokens longInput).length : Int) < effectiveMax defaultRagConfig ∧
    (chunkText charTokens charDetok defaultRagConfig longInput).length ≠ 1 := by
  have hlen : (charTokens longInput).length = 201 := by
    unfold charTokens longInput
    rw [show (String.mk (List.replicate 201 'a')).data = List.replicate 201 'a' from rfl,
      List.length_replicate]
  constructor
  · rw [hlen]
    decide
  · have h2 : 2 ≤ (chunkText charTokens charDetok defaultRagConfig longInput).length := by
      apply chunkText_two_chunks_of_step_lt
      rw [hlen]
      decide
    omega

theorem C5_witness :
    ((charTokens "hello").length : Int) < effectiveMax defaultRagConfig ∧
    (charTokens "hello").length ≤ effectiveStep defaultRagConfig ∧
    charDetok (charTokens "hello") = "hello" ∧
    chunkText charTokens charDetok defaultRagConfig "hello" =
      [{ chunk := "hello", tokens := (charTokens "hello").length }] :=
  ⟨by decide, by decide, by decide,
    C5_short_input_single_chunk charTokens charDetok defaultRagConfig "hello"
      (by decide) (by decide) (by decide)⟩

/-- C9: `chunkText` is total (it is a Lean function, so termination is by
construction) and returns a non-empty chunk sequence for every input and
every configuration; the effective maximum is clamped to at least 50, the
effective overlap to at most a quarter of the maximum (hence strictly
below it), so the loop advance is positive; and empty input (which the
tokenizer encodes to no tokens) yields exactly one chunk with empty text
and token count 0. -/
theorem C9_chunker_total_nonempty {τ : Type} (encode : String → List τ)
    (decode : List τ → String) (c : RagConfig) (text : String)
    (hEmpty : encode "" = []) :
    chunkText encode decode c text ≠ [] ∧
    50 ≤ effectiveMax c ∧
    effectiveOverlap c ≤ effectiveMax c / 4 ∧
    effectiveOverlap c < effectiveMax c ∧
    0 < effectiveStep c ∧
    chunkText encode decode c "" = [{ chunk := "", tokens := 0 }] := by
  refine ⟨?_, le_effectiveMax c, min_le_left _ _, effectiveOverlap_lt c,
    effectiveStep_pos c, ?_⟩
  · rw [chunkText_eq_ite]
    split
    · simp
    · next h =>
        simp only [List.isEmpty_eq_true] at h
        exact h
  · rw [chunkText_eq_ite, chunkLoop_stop]
    · simp [hEmpty]
    · simp [hEmpty]

theorem C9_witness :
    charTokens "" = [] ∧
    (chunkText charTokens charDetok defaultRagConfig "x" ≠ [] ∧
      50 ≤ effectiveMax defaultRagConfig ∧
      effectiveOverlap defaultRagConfig ≤ effectiveMax defaultRagConfig / 4 ∧
      effectiveOverlap defaultRagConfig < effectiveMax defaultRagConfig ∧
      0 < effectiveStep defaultRagConfig ∧
      chunkText charTokens charDetok defaultRagConfig "" =
        [{ chunk := "", tokens := 0 }]) :=
  ⟨by decide, C9_chunker_total_nonempty charTokens charDetok defaultRagConfig "x" (by decide)⟩

/-- A row of the `rag_chunks` table (`src/lib/schema.ts` lines 188-219).
The embedding vector is modelled over the rationals; timestamps are
abstract instants. -/
structure ChunkRow where
  id : Nat
  userId : String
  sourceType : SourceType
  sourceId : Option Int
  chatId : Option Int
  characterId : Option Int
  title : Option String
  content : String
  embedding : List Rat
  tokenCount : Option Nat
  hash : String
  createdAt : Nat
  updatedAt : Nat
deriving DecidableEq, Repr

/-- The `rag_chunks` table: its rows plus the next value of the serial
primary key. -/
structure ChunkStore where
  rows : List ChunkRow
  nextId : Nat
deriving DecidableEq, Repr

def emptyChunkStore : ChunkStore :=
  { rows := [], nextId := 1 }

/-- The argument record of `upsertChunk` (`src/lib/rag.ts` lines 36-40);
optional fields default to null exactly as the `?? null` coalescing does. -/
structure UpsertParams where
  userId : String
  sourceType : SourceType
  sourceId : Option Int := none
  chatId : Option Int := none
  characterId : Option Int := none
  title : Option String := none
  content : String
  embedding : List Rat
  tokenCount : Option Nat := none
deriving Repr

/-- Conflict of two `source_id` values under PostgreSQL unique-index
semantics: NULLs are distinct, so only two equal non-null values
conflict. -/
def sidConflict : Option Int → Option Int → Bool
  | some x, some y => x == y
  | _, _ => false

theorem sidConflict_eq_true {a b : Option Int} :
    sidConflict a b = true ↔ ∃ x, a = some x ∧ b = some x := by
  cases a with
  | none => simp [sidConflict]
  | some x =>
      cases b with
      | none => simp [sidConflict]
      | some y =>
          simp only [sidConflict, beq_iff_eq]
          constructor
          · rintro rfl
            exact ⟨x, rfl, rfl⟩
          · rintro ⟨z, hz, hz2⟩
            cases hz
            cases hz2
            rfl

/-- Whether an existing row conflicts with an insert carrying the given
key on the unique index `(user_id, source_type, source_id, hash)`. -/
def conflictsWith (r : ChunkRow) (uid : String) (st : SourceType)
    (sid : Option Int) (h : String) : Bool :=
  r.userId == uid && r.sourceType == st && sidConflict r.sourceId sid &&
    r.hash == h

/-- The `payload` object of `upsertChunk` applied to a row as the
`onConflictDoUpdate` set clause: every mutable field is overwritten and
`updated_at` is bumped; `id`, `hash` and `created_at` are untouched. -/
def setPayload (p : UpsertParams) (now : Nat) (r : ChunkRow) : ChunkRow :=
  { r with userId := p.userId, sourceType := p.sourceType,
           sourceId := p.sourceId, chatId := p.chatId,
           characterId := p.characterId, title := p.title,
           content := p.content, embedding := p.embedding,
           tokenCount := p.tokenCount, updatedAt := now }

/-- The row inserted by `upsertChunk` when no conflict fires: the payload
plus the content hash, with a fresh serial id. -/
def insertedRow (sha256 : String → String) (now : Nat) (nextId : Nat)
    (p : UpsertParams) : ChunkRow :=
  { id := nextId, userId := p.userId, sourceType := p.sourceType,
    sourceId := p.sourceId, chatId := p.chatId,
    characterId := p.characterId, title := p.title,
    content := p.content, embedding := p.embedding,
    tokenCount := p.tokenCount, hash := sha256 p.content, createdAt := now,
    updatedAt := now }

/-- `upsertChunk` (`src/lib/rag.ts` lines 36-53): insert the chunk with
its content hash, or, on a unique-index conflict (PostgreSQL semantics:
null `source_id` values never conflict), update all payload fields of the
conflicting row.  The SHA-256 of the content is an external call and is
passed in as `sha256`. -/
def upsertChunk (sha256 : String → String) (now : Nat) (s : ChunkStore)
    (p : UpsertParams) : ChunkStore :=
  if s.rows.any (fun r =>
      conflictsWith r p.userId p.sourceType p.sourceId (sha256 p.content)) then
    { s with rows := s.rows.map (fun r =>
        if conflictsWith r p.userId p.sourceType p.sourceId (sha256 p.content) then
          setPayload p now r
        else r) }
  else
    { rows := s.rows ++ [insertedRow sha256 now s.nextId p],
      nextId := s.nextId + 1 }

/-- The unique-index key of a row. -/
def keyOf (r : ChunkRow) : String × SourceType × Option Int × String :=
  (r.userId, r.sourceType, r.sourceId, r.hash)

/-- Two distinct rows violate the intended uniqueness invariant when they
agree on the whole key and the `source_id` component is non-null (null
`source_id` values are distinct for the index, so rows sharing a null
`source_id` are exempt). -/
def NonNullDup (a b : ChunkRow) : Prop :=
  keyOf a = keyOf b ∧ a.sourceId ≠ none

/-- The store invariant actually enforced by the unique index: no two
rows share a key with non-null `source_id`. -/
def NoDupNonNullKey (s : ChunkStore) : Prop :=
  s.rows.Pairwise (fun a b => ¬ NonNullDup a b)

theorem conflictsWith_eq_true {r : ChunkRow} {uid : String} {st : SourceType}
    {sid : Option Int} {h : String} :
    conflictsWith r uid st sid h = true ↔
      r.userId = uid ∧ r.sourceType = st ∧ sidConflict r.sourceId sid = true ∧
        r.hash = h := by
  unfold conflictsWith
  simp [Bool.and_eq_true, and_assoc]

theorem sidConflict_none (a : Option Int) : sidConflict a none = false := by
  cases a <;> rfl

theorem keyOf_setPayload {r : ChunkRow} {p : UpsertParams} {now : Nat}
    {h : String}
    (hc : conflictsWith r p.userId p.sourceType p.sourceId h = true) :
    keyOf (setPayload p now r) = keyOf r := by
  rw [conflictsWith_eq_true] at hc
  obtain ⟨h1, h2, h3, _⟩ := hc
  obtain ⟨x, hx1, hx2⟩ := sidConflict_eq_true.mp h3
  show (p.userId, p.sourceType, p.sourceId, r.hash) =
    (r.userId, r.sourceType, r.sourceId, r.hash)
  rw [← h1, ← h2, hx1, hx2]

theorem conflictsWith_congr {r r' : ChunkRow} (hk : keyOf r' = keyOf r)
    (uid : String) (st : SourceType) (sid : Option Int) (h : String) :
    conflictsWith r' uid st sid h = conflictsWith r uid st sid h := by
  unfold conflictsWith
  have h1 : r'.userId = r.userId := congrArg (fun k => k.1) hk
  have h2 : r'.sourceType = r.sourceType := congrArg (fun k => k.2.1) hk
  have h3 : r'.sourceId = r.sourceId := congrArg (fun k => k.2.2.1) hk
  have h4 : r'.hash = r.hash := congrArg (fun k => k.2.2.2) hk
  rw [h1, h2, h3, h4]

theorem NonNullDup_of_congr {a a' b b' : ChunkRow} (ha : keyOf a' = keyOf a)
    (hb : keyOf b' = keyOf b) (hd : NonNullDup a' b') : NonNullDup a b := by
  obtain ⟨hk, hn⟩ := hd
  constructor
  · rw [← ha, ← hb]
    exact hk
  · have hsid : a.sourceId = a'.sourceId :=
      (congrArg (fun k => k.2.2.1) ha).symm
    rw [hsid]
    exact hn

theorem noDupNonNullKey_upsert (sha256 : String → String) (now : Nat)
    (s : ChunkStore) (p : UpsertParams) (hs : NoDupNonNullKey s) :
    NoDupNonNullKey (upsertChunk sha256 now s p) := by
  unfold NoDupNonNullKey at hs ⊢
  unfold upsertChunk
  split
  · next hany =>
      dsimp only
      rw [List.pairwise_map]
      refine hs.imp ?_
      intro a b hab hd
      apply hab
      refine NonNullDup_of_congr ?_ ?_ hd
      · split
        · next hc => exact keyOf_setPayload hc
        · rfl
      · split
        · next hc => exact keyOf_setPayload hc
        · rfl
  · next hany =>
      dsimp only
      rw [List.pairwise_append]
      refine ⟨hs, List.pairwise_singleton _ _, ?_⟩
      intro a ha b hb
      rw [List.mem_singleton] at hb
      subst hb
      rintro ⟨hk, hn⟩
      apply hany
      rw [List.any_eq_true]
      refine ⟨a, ha, ?_⟩
      have h1 : a.userId = p.userId := congrArg (fun k => k.1) hk
      have h2 : a.sourceType = p.sourceType := congrArg (fun k => k.2.1) hk
      have h3 : a.sourceId = p.sourceId := congrArg (fun k => k.2.2.1) hk
      have h4 : a.hash = sha256 p.content := congrArg (fun k => k.2.2.2) hk
      rw [conflictsWith_eq_true]
      refine ⟨h1, h2, ?_, h4⟩
      rw [sidConflict_eq_true]
      cases hsome : a.sourceId with
      | none => exact absurd hsome hn
      | some x => exact ⟨x, rfl, by rw [← h3, hsome]⟩

/-- Whether the store already holds a row conflicting with the given
unique-index key. -/
def hasConflict (s : ChunkStore) (uid : String) (st : SourceType)
    (sid : Option Int) (h : String) : Bool :=
  s.rows.any (fun r => conflictsWith r uid st sid h)

theorem hasConflict_upsert_self (sha256 : String → String) (now : Nat)
    (s : ChunkStore) (p : UpsertParams) (x : Int) (hx : p.sourceId = some x) :
    hasConflict (upsertChunk sha256 now s p) p.userId p.sourceType p.sourceId
      (sha256 p.content) = true := by
  unfold hasConflict upsertChunk
  split
  · next hany =>
      dsimp only
      obtain ⟨r, hr, hc⟩ := List.any_eq_true.mp hany
      rw [List.any_eq_true]
      refine ⟨if conflictsWith r p.userId p.sourceType p.sourceId
          (sha256 p.content) then setPayload p now r else r,
        List.mem_map_of_mem _ hr, ?_⟩
      rw [if_pos hc, conflictsWith_congr (keyOf_setPayload hc), hc]
  · next hany =>
      dsimp only
      rw [List.any_eq_true]
      refine ⟨insertedRow sha256 now s.nextId p, by simp, ?_⟩
      rw [conflictsWith_eq_true]
      refine ⟨rfl, rfl, ?_, rfl⟩
      rw [sidConflict_eq_true]
      exact ⟨x, hx, hx⟩

theorem hasConflict_upsert_mono (sha256 : String → String) (now : Nat)
    (s : ChunkStore) (p : UpsertParams) (uid : String) (st : SourceType)
    (sid : Option Int) (h : String)
    (hpre : hasConflict s uid st sid h = true) :
    hasConflict (upsertChunk sha256 now s p) uid st sid h = true := by
  unfold hasConflict at hpre ⊢
  unfold upsertChunk
  obtain ⟨r, hr, hc⟩ := List.any_eq_true.mp hpre
  split
  · dsimp only
    rw [List.any_eq_true]
    refine ⟨if conflictsWith r p.userId p.sourceType p.sourceId
        (sha256 p.content) then setPayload p now r else r,
      List.mem_map_of_mem _ hr, ?_⟩
    split
    · next hcr => rw [conflictsWith_congr (keyOf_setPayload hcr), hc]
    · exact hc
  · dsimp only
    rw [List.any_eq_true]
    exact ⟨r, List.mem_append_left _ hr, hc⟩

theorem upsert_length_of_hasConflict (sha256 : String → String) (now : Nat)
    (s : ChunkStore) (p : UpsertParams)
    (hpre : hasConflict s p.userId p.sourceType p.sourceId
      (sha256 p.content) = true) :
    (upsertChunk sha256 now s p).rows.length = s.rows.length := by
  unfold hasConflict at hpre
  unfold upsertChunk
  rw [if_pos hpre]
  simp

/-- A sequence of upserts (all at one instant, with one hash function)
applied to the store in order. -/
def upsertFold (sha256 : String → String) (now : Nat) (s : ChunkStore)
    (ps : List UpsertParams) : ChunkStore :=
  ps.foldl (fun acc q => upsertChunk sha256 now acc q) s

theorem hasConflict_upsertFold_mono (sha256 : String → String) (now : Nat)
    (ps : List UpsertParams) (s : ChunkStore) (uid : String) (st : SourceType)
    (sid : Option Int) (h : String)
    (hpre : hasConflict s uid st sid h = true) :
    hasConflict (upsertFold sha256 now s ps) uid st sid h = true := by
  induction ps generalizing s with
  | nil => exact hpre
  | cons q rest ih =>
      exact ih _ (hasConflict_upsert_mono sha256 now s q uid st sid h hpre)

theorem upsertFold_keys_present (sha256 : String → String) (now : Nat)
    (ps : List UpsertParams) (s : ChunkStore)
    (hall : ∀ q ∈ ps, ∃ x, q.sourceId = some x) :
    ∀ q ∈ ps, hasConflict (upsertFold sha256 now s ps) q.userId q.sourceType
      q.sourceId (sha256 q.content) = true := by
  induction ps generalizing s with
  | nil => intro q hq; cases hq
  | cons p rest ih =>
      intro q hq
      rcases List.mem_cons.mp hq with rfl | hq
      · obtain ⟨x, hx⟩ := hall q (List.mem_cons_self _ _)
        exact hasConflict_upsertFold_mono sha256 now rest _ _ _ _ _
          (hasConflict_upsert_self sha256 now s q x hx)
      · exact ih (upsertChunk sha256 now s p)
          (fun r hr => hall r (List.mem_cons_of_mem _ hr)) q hq

theorem upsertFold_length_of_present (sha256 : String → String) (now : Nat)
    (ps : List UpsertParams) (s : ChunkStore)
    (hall : ∀ q ∈ ps, hasConflict s q.userId q.sourceType q.sourceId
      (sha256 q.content) = true) :
    (upsertFold sha256 now s ps).rows.length = s.rows.length := by
  induction ps generalizing s with
  | nil => rfl
  | cons p rest ih =>
      have hp := hall p (List.mem_cons_self _ _)
      have hlen := upsert_length_of_hasConflict sha256 now s p hp
      have hrest : ∀ q ∈ rest, hasConflict (upsertChunk sha256 now s p)
          q.userId q.sourceType q.sourceId (sha256 q.content) = true :=
        fun q hq => hasConflict_upsert_mono sha256 now s p _ _ _ _
          (hall q (List.mem_cons_of_mem _ hq))
      calc (upsertFold sha256 now (upsertChunk sha256 now s p) rest).rows.length
          = (upsertChunk sha256 now s p).rows.length := ih _ hrest
        _ = s.rows.length := hlen

/-- `indexChunks` (`src/lib/rag.ts` lines 61-71): chunk the text, embed
each chunk (`embedFn` abstracts the embedding call), and upsert each
chunk as a row of the given source.  The `chatId` field is never set on
this path. -/
def indexChunks {τ : Type} (encode : String → List τ) (decode : List τ → String)
    (sha256 : String → String) (embedFn : String → List Rat) (cfg : RagConfig)
    (now : Nat) (s : ChunkStore) (userId : String) (sourceType : SourceType)
    (sourceId : Int) (title : Option String) (text : String)
    (characterId : Option Int) : ChunkStore :=
  (chunkText encode decode cfg text).foldl (fun acc c =>
    upsertChunk sha256 now acc
      { userId := userId, sourceType := sourceType, sourceId := some sourceId,
        characterId := characterId, title := title, content := c.chunk,
        embedding := embedFn c.chunk, tokenCount := some c.tokens }) s

/-- Argument record of `indexLoreEntry`. -/
structure LoreIndexParams where
  userId : String
  id : Int
  title : String
  content : String
deriving Repr

/-- `indexLoreEntry`: canonical text is `title`, a blank line, then
`content`; chunks are upserted with source type `lore` and the lore row
id as `source_id`. -/
def indexLoreEntry {τ : Type} (encode : String → List τ)
    (decode : List τ → String) (sha256 : String → String)
    (embedFn : String → List Rat) (cfg : RagConfig) (now : Nat)
    (s : ChunkStore) (p : LoreIndexParams) : ChunkStore :=
  indexChunks encode decode sha256 embedFn cfg now s p.userId SourceType.lore
    p.id (some p.title) (p.title ++ "\n\n" ++ p.content) none

/-- Message author role. -/
inductive Role where
  | user
  | assistant
deriving DecidableEq, Repr

/-- The role marker prepended to a message before chunking
(`p.role === "user" ? "User" : "Assistant"`). -/
def roleMarker : Role → String
  | Role.user => "User"
  | Role.assistant => "Assistant"

/-- Argument record of `indexMessageChunk`. -/
structure MessageIndexParams where
  userId : String
  chatId : Int
  characterId : Option Int := none
  role : Role
  content : String
deriving Repr

/-- `indexMessageChunk` (`src/lib/rag.ts` lines 79-90): chunk
`"{User|Assistant}: {content}"` and upsert each chunk with source type
`message`, the chat id set, and — crucially — no `source_id` (it is never
passed, so it defaults to null). -/
def indexMessageChunk {τ : Type} (encode : String → List τ)
    (decode : List τ → String) (sha256 : String → String)
    (embedFn : String → List Rat) (cfg : RagConfig) (now : Nat)
    (s : ChunkStore) (p : MessageIndexParams) : ChunkStore :=
  (chunkText encode decode cfg (roleMarker p.role ++ ": " ++ p.content)).foldl
    (fun acc c => upsertChunk sha256 now acc
      { userId := p.userId, sourceType := SourceType.message,
        chatId := some p.chatId, characterId := p.characterId,
        content := c.chunk, embedding := embedFn c.chunk,
        tokenCount := some c.tokens }) s

theorem noDupNonNullKey_opsFold (sha256 : String → String)
    (ops : List (UpsertParams × Nat)) (s : ChunkStore)
    (hs : NoDupNonNullKey s) :
    NoDupNonNullKey
      (ops.foldl (fun acc op => upsertChunk sha256 op.2 acc op.1) s) := by
  induction ops generalizing s with
  | nil => exact hs
  | cons op rest ih => exact ih _ (noDupNonNullKey_upsert sha256 op.2 s op.1 hs)

theorem indexChunks_eq_upsertFold {τ : Type} (encode : String → List τ)
    (decode : List τ → String) (sha256 : String → String)
    (embedFn : String → List Rat) (cfg : RagConfig) (now : Nat)
    (s : ChunkStore) (userId : String) (sourceType : SourceType)
    (sourceId : Int) (title : Option String) (text : String)
    (characterId : Option Int) :
    indexChunks encode decode sha256 embedFn cfg now s userId sourceType
        sourceId title text characterId =
      upsertFold sha256 now s ((chunkText encode decode cfg text).map (fun c =>
        { userId := userId, sourceType := sourceType,
          sourceId := some sourceId, characterId := characterId,
          title := title, content := c.chunk, embedding := embedFn c.chunk,
          tokenCount := some c.tokens })) := by
  unfold indexChunks upsertFold
  rw [List.foldl_map]

/-- C1 (amended): after any sequence of chunk upserts starting from the
empty store, no two rows share the unique-index key
`(owner, source_type, source_id, content_hash)` with a non-null
`source_id`; in particular indexing the same lore entry twice leaves the
row count unchanged relative to the first pass — the second pass
collapses to updates.  Rows with null `source_id` (message chunks) are
exempt, because the unique index treats nulls as distinct (see the
counterexample). -/
theorem C1_upsert_key_uniqueness {τ : Type} (encode : String → List τ)
    (decode : List τ → String) (sha256 : String → String)
    (embedFn : String → List Rat) (cfg : RagConfig) (now1 now2 : Nat)
    (s : ChunkStore) (p : LoreIndexParams) (ops : List (UpsertParams × Nat)) :
    NoDupNonNullKey
      (ops.foldl (fun acc op => upsertChunk sha256 op.2 acc op.1)
        emptyChunkStore) ∧
    (indexLoreEntry encode decode sha256 embedFn cfg now2
        (indexLoreEntry encode decode sha256 embedFn cfg now1 s p)
        p).rows.length =
      (indexLoreEntry encode decode sha256 embedFn cfg now1 s p).rows.length := by
  constructor
  · exact noDupNonNullKey_opsFold sha256 ops emptyChunkStore List.Pairwise.nil
  · unfold indexLoreEntry
    rw [indexChunks_eq_upsertFold, indexChunks_eq_upsertFold]
    apply upsertFold_length_of_present
    intro q hq
    refine upsertFold_keys_present sha256 now1 _ s ?_ q hq
    intro r hr
    obtain ⟨c, _, rfl⟩ := List.mem_map.mp hr
    exact ⟨p.id, rfl⟩

/-- Twice-upserted message-type parameters: same owner, same content,
null `source_id`. -/
def messageDupParams : UpsertParams :=
  { userId := "u", sourceType := SourceType.message, content := "hi",
    embedding := [] }

/-- C1 fails as stated: upserting the same message-type chunk twice
(null `source_id`) yields two rows carrying the identical
`(owner, source_type, source_id, content_hash)` key, because the unique
index treats null `source_id` as distinct and the conflict clause never
fires. -/
theorem C1_counterexample :
    (upsertChunk id 0 (upsertChunk id 0 emptyChunkStore messageDupParams)
        messageDupParams).rows.map keyOf =
      [("u", SourceType.message, none, "hi"),
       ("u", SourceType.message, none, "hi")] := by
  rfl

theorem upsert_none_append (sha256 : String → String) (now : Nat)
    (s : ChunkStore) (p : UpsertParams) (hnone : p.sourceId = none) :
    upsertChunk sha256 now s p =
      { rows := s.rows ++ [insertedRow sha256 now s.nextId p],
        nextId := s.nextId + 1 } := by
  have hfalse : s.rows.any (fun r =>
      conflictsWith r p.userId p.sourceType p.sourceId (sha256 p.content)) =
      false := by
    rw [List.any_eq_false]
    intro r _
    simp [conflictsWith, hnone, sidConflict_none]
  unfold upsertChunk
  rw [hfalse]
  simp

theorem upsertFold_all_none (sha256 : String → String) (now : Nat)
    (ps : List UpsertParams) (s : ChunkStore)
    (hall : ∀ q ∈ ps, q.sourceId = none ∧ q.sourceType = SourceType.message) :
    ∃ extra : List ChunkRow,
      (upsertFold sha256 now s ps).rows = s.rows ++ extra ∧
      extra.length = ps.length ∧
      ∀ r ∈ extra, r.sourceId = none ∧ r.sourceType = SourceType.message := by
  induction ps generalizing s with
  | nil => exact ⟨[], by simp [upsertFold], rfl, by simp⟩
  | cons q rest ih =>
      obtain ⟨hq1, hq2⟩ := hall q (List.mem_cons_self _ _)
      have hstep := upsert_none_append sha256 now s q hq1
      obtain ⟨extra, hrows, hlen, hprops⟩ := ih (upsertChunk sha256 now s q)
        (fun r hr => hall r (List.mem_cons_of_mem _ hr))
      refine ⟨insertedRow sha256 now s.nextId q :: extra, ?_, by simp [hlen], ?_⟩
      · show (upsertFold sha256 now (upsertChunk sha256 now s q) rest).rows = _
        rw [hrows, hstep]
        simp
      · intro r hr
        rcases List.mem_cons.mp hr with rfl | hr
        · exact ⟨hq1, hq2⟩
        · exact hprops r hr

theorem indexMessageChunk_eq_upsertFold {τ : Type} (encode : String → List τ)
    (decode : List τ → String) (sha256 : String → String)
    (embedFn : String → List Rat) (cfg : RagConfig) (now : Nat)
    (s : ChunkStore) (p : MessageIndexParams) :
    indexMessageChunk encode decode sha256 embedFn cfg now s p =
      upsertFold sha256 now s
        ((chunkText encode decode cfg
            (roleMarker p.role ++ ": " ++ p.content)).map (fun c =>
          { userId := p.userId, sourceType := SourceType.message,
            chatId := some p.chatId, characterId := p.characterId,
            content := c.chunk, embedding := embedFn c.chunk,
            tokenCount := some c.tokens })) := by
  unfold indexMessageChunk upsertFold
  rw [List.foldl_map]

/-- C10: message-derived chunks are stored with null `source_id`; the
unique index treats nulls as distinct, so the conflict clause never fires
for them — each message indexing pass appends one fresh row per chunk,
and indexing the identical message twice accumulates two duplicate rows
per chunk instead of updating. -/
theorem C10_message_chunks_always_insert {τ : Type} (encode : String → List τ)
    (decode : List τ → String) (sha256 : String → String)
    (embedFn : String → List Rat) (cfg : RagConfig) (now1 now2 : Nat)
    (s : ChunkStore) (p : MessageIndexParams) :
    (indexMessageChunk encode decode sha256 embedFn cfg now1 s p).rows.length =
      s.rows.length +
        (chunkText encode decode cfg
          (roleMarker p.role ++ ": " ++ p.content)).length ∧
    (∀ r ∈ (indexMessageChunk encode decode sha256 embedFn cfg now1 s p).rows,
      r ∉ s.rows → r.sourceId = none ∧ r.sourceType = SourceType.message) ∧
    (indexMessageChunk encode decode sha256 embedFn cfg now2
        (indexMessageChunk encode decode sha256 embedFn cfg now1 s p)
        p).rows.length =
      s.rows.length +
        2 * (chunkText encode decode cfg
          (roleMarker p.role ++ ": " ++ p.content)).length := by
  have hall : ∀ q ∈ ((chunkText encode decode cfg
      (roleMarker p.role ++ ": " ++ p.content)).map (fun c =>
        ({ userId := p.userId, sourceType := SourceType.message,
           chatId := some p.chatId, characterId := p.characterId,
           content := c.chunk, embedding := embedFn c.chunk,
           tokenCount := some c.tokens } : UpsertParams))),
      q.sourceId = none ∧ q.sourceType = SourceType.message := by
    intro q hq
    obtain ⟨c, _, rfl⟩ := List.mem_map.mp hq
    exact ⟨rfl, rfl⟩
  obtain ⟨extra1, hrows1, hlen1, _⟩ :=
    upsertFold_all_none sha256 now1 _ s hall
  rw [← indexMessageChunk_eq_upsertFold] at hrows1
  obtain ⟨extra2, hrows2, hlen2, _⟩ :=
    upsertFold_all_none sha256 now2 _
      (indexMessageChunk encode decode sha256 embedFn cfg now1 s p) hall
  rw [← indexMessageChunk_eq_upsertFold] at hrows2
  rw [List.length_map] at hlen1 hlen2
  refine ⟨?_, ?_, ?_⟩
  · rw [hrows1]
    simp [hlen1]
  · intro r hr hnotin
    rw [hrows1] at hr
    rcases List.mem_append.mp hr with hr | hr
    · exact absurd hr hnotin
    · obtain ⟨extra1x, hx1, hx2, hx3⟩ :=
        upsertFold_all_none sha256 now1 _ s hall
      rw [← indexMessageChunk_eq_upsertFold] at hx1
      have : extra1x = extra1 := by
        have := hx1.symm.trans hrows1
        exact List.append_cancel_left this
      subst this
      exact hx3 r hr
  · rw [hrows2, hrows1]
    simp [hlen1, hlen2]
    ring

/-- One entry returned by a retrieval bucket:
`{ title, content, score }` with `score = 1 - distance`. -/
structure RetrievedEntry where
  title : Option String
  content : String
  score : Rat
deriving DecidableEq, Repr

/-- Argument record of `retrieveRAGContext` (`src/lib/rag.ts` line 92). -/
structure RetrieveParams where
  userId : String
  query : String
  chatId : Option Int := none
  characterId : Option Int := none
  loreIds : Option (List Int) := none
  topK : Option Nat := none
deriving Repr

/-- The three retrieval buckets returned by `retrieveRAGContext`. -/
structure RagResult where
  lore : List RetrievedEntry
  characters : List RetrievedEntry
  memories : List RetrievedEntry
deriving DecidableEq, Repr

/-- JavaScript truthiness of an optional numeric id, as used by the
conditions `p.characterId ? ... : ...` and `p.chatId && ...`: null,
undefined and 0 are falsy. -/
def jsTruthy : Option Int → Bool
  | none => false
  | some n => n != 0

/-- The `fetchRanked` helper of `retrieveRAGContext` (`src/lib/rag.ts`
lines 102-119): select the user's rows of one source type whose pgvector
cosine distance to the query embedding is at most
`maxDistance = 1 - ragMinScore`, order by distance ascending, truncate to
`topK`, and report each row with `score = 1 - distance`.  The native
distance operator is the external `dist` parameter; the stable merge sort
models `ORDER BY distance` with ties in store iteration order. -/
def fetchRanked (dist : List Rat → List Rat → Rat) (qEmb : List Rat)
    (cfg : RagConfig) (topK : Nat) (s : ChunkStore) (userId : String)
    (srcType : SourceType) (extra : ChunkRow → Bool) : List RetrievedEntry :=
  let maxDistance := 1 - cfg.ragMinScore
  let rows := s.rows.filter (fun r =>
    r.userId == userId && r.sourceType == srcType &&
      decide (dist r.embedding qEmb ≤ maxDistance) && extra r)
  let sorted := rows.mergeSort (fun a b =>
    decide (dist a.embedding qEmb ≤ dist b.embedding qEmb))
  (sorted.take topK).map (fun r =>
    { title := r.title, content := r.content,
      score := 1 - dist r.embedding qEmb })

/-- `retrieveRAGContext` (`src/lib/rag.ts` lines 92-133): embed the query
(`embedQuery` abstracts the cached embedding call), then fill the three
buckets.  Lore is deliberately unscoped (`fetchRanked("lore", [])` — the
`loreIds` argument is ignored); the character bucket is narrowed to the
active persona when one is supplied (truthy), and the message bucket to
the active conversation and/or persona when supplied (truthy). -/
def retrieveRAGContext (dist : List Rat → List Rat → Rat)
    (embedQuery : String → List Rat) (cfg : RagConfig) (s : ChunkStore)
    (p : RetrieveParams) : RagResult :=
  let topK := p.topK.getD cfg.ragTopK
  let qEmb := embedQuery p.query
  { lore := fetchRanked dist qEmb cfg topK s p.userId SourceType.lore
      (fun _ => true)
    characters := fetchRanked dist qEmb cfg topK s p.userId
      SourceType.character
      (fun r => if jsTruthy p.characterId
        then r.characterId == p.characterId else true)
    memories := fetchRanked dist qEmb cfg topK s p.userId SourceType.message
      (fun r =>
        (if jsTruthy p.chatId then r.chatId == p.chatId else true) &&
        (if jsTruthy p.characterId
          then r.characterId == p.characterId else true)) }

/-- What C2 asserts of one bucket: at most `topK` entries, every score at
least the minimum-similarity threshold, and scores descending. -/
def RankedBucketOK (cfg : RagConfig) (topK : Nat)
    (bucket : List RetrievedEntry) : Prop :=
  bucket.length ≤ topK ∧
  (∀ e ∈ bucket, cfg.ragMinScore ≤ e.score) ∧
  bucket.Pairwise (fun a b => b.score ≤ a.score)

theorem fetchRanked_ok (dist : List Rat → List Rat → Rat) (qEmb : List Rat)
    (cfg : RagConfig) (topK : Nat) (s : ChunkStore) (userId : String)
    (srcType : SourceType) (extra : ChunkRow → Bool) :
    RankedBucketOK cfg topK
      (fetchRanked dist qEmb cfg topK s userId srcType extra) := by
  unfold RankedBucketOK fetchRanked
  dsimp only
  refine ⟨?_, ?_, ?_⟩
  · rw [List.length_map]
    exact (List.length_take_le _ _)
  · intro e he
    obtain ⟨r, hr, rfl⟩ := List.mem_map.mp he
    have hr2 : r ∈ (s.rows.filter (fun r =>
        r.userId == userId && r.sourceType == srcType &&
          decide (dist r.embedding qEmb ≤ 1 - cfg.ragMinScore) && extra r)) :=
      List.mem_mergeSort.mp (List.mem_of_mem_take hr)
    have hpred := List.of_mem_filter hr2
    have hdist : dist r.embedding qEmb ≤ 1 - cfg.ragMinScore := by
      simp only [Bool.and_eq_true, decide_eq_true_eq] at hpred
      exact hpred.1.2
    dsimp only
    linarith
  · rw [List.pairwise_map]
    apply List.Pairwise.take
    have hsorted := @List.sorted_mergeSort ChunkRow
      (fun a b : ChunkRow =>
        decide (dist a.embedding qEmb ≤ dist b.embedding qEmb))
      (fun a b c hab hbc => by
        simp only [decide_eq_true_eq] at hab hbc ⊢
        exact le_trans hab hbc)
      (fun a b => by
        simp only [Bool.or_eq_true, decide_eq_true_eq]
        exact le_total _ _)
      (s.rows.filter (fun r =>
        r.userId == userId && r.sourceType == srcType &&
          decide (dist r.embedding qEmb ≤ 1 - cfg.ragMinScore) && extra r))
    refine hsorted.imp ?_
    intro a b hab
    simp only [decide_eq_true_eq] at hab
    dsimp only
    linarith

/-- C2: every retrieval bucket (lore, characters, memories) holds at most
`top_k` entries (the caller's value or the configured default), every
returned score is at least the minimum-similarity threshold (enforced in
the query as the max-distance cutoff `1 - threshold`), and entries are
ordered descending by score. -/
theorem C2_retrieval_buckets_ranked (dist : List Rat → List Rat → Rat)
    (embedQuery : String → List Rat) (cfg : RagConfig) (s : ChunkStore)
    (p : RetrieveParams) :
    RankedBucketOK cfg (p.topK.getD cfg.ragTopK)
      (retrieveRAGContext dist embedQuery cfg s p).lore ∧
    RankedBucketOK cfg (p.topK.getD cfg.ragTopK)
      (retrieveRAGContext dist embedQuery cfg s p).characters ∧
    RankedBucketOK cfg (p.topK.getD cfg.ragTopK)
      (retrieveRAGContext dist embedQuery cfg s p).memories :=
  ⟨fetchRanked_ok dist (embedQuery p.query) cfg (p.topK.getD cfg.ragTopK) s
      p.userId SourceType.lore _,
    fetchRanked_ok dist (embedQuery p.query) cfg (p.topK.getD cfg.ragTopK) s
      p.userId SourceType.character _,
    fetchRanked_ok dist (embedQuery p.query) cfg (p.topK.getD cfg.ragTopK) s
      p.userId SourceType.message _⟩

/-- C6: the lore bucket's candidate set is all of the user's lore-type
chunks — the `loreIds` argument changes nothing about the result, the
lore search being issued with no extra conditions, and the lore bucket
does not depend on the conversation or persona scope either (so newly
added lore is discoverable in older conversations). -/
theorem C6_lore_unscoped (dist : List Rat → List Rat → Rat)
    (embedQuery : String → List Rat) (cfg : RagConfig) (s : ChunkStore)
    (p : RetrieveParams) (ids : Option (List Int)) :
    retrieveRAGContext dist embedQuery cfg s { p with loreIds := ids } =
      retrieveRAGContext dist embedQuery cfg s p ∧
    (retrieveRAGContext dist embedQuery cfg s p).lore =
      fetchRanked dist (embedQuery p.query) cfg (p.topK.getD cfg.ragTopK) s
        p.userId SourceType.lore (fun _ => true) ∧
    (retrieveRAGContext dist embedQuery cfg s
        { userId := p.userId, query := p.query, topK := p.topK }).lore =
      (retrieveRAGContext dist embedQuery cfg s p).lore :=
  ⟨rfl, rfl, rfl⟩

/-- The generic LRU cache of `src/lib/embeddingCache.ts` (lines 8-46),
backed by a JavaScript `Map`; the association list carries the `Map`
entries in insertion order, oldest first.  Keys are unique in every state
produced by the operations. -/
structure LRUCache (K V : Type) where
  cache : List (K × V)
  maxSize : Nat

/-- A fresh cache of the given capacity (`new LRUCache(maxSize)`). -/
def emptyLRU (K V : Type) (maxSize : Nat) : LRUCache K V :=
  { cache := [], maxSize := maxSize }

/-- `get` (lines 17-25): on a hit, delete the entry and re-insert it at
the end — most recently used — and return its value; on a miss return
undefined and leave the cache unchanged. -/
def LRUCache.get {K V : Type} [BEq K] (c : LRUCache K V) (k : K) :
    Option V × LRUCache K V :=
  match c.cache.find? (fun e => e.1 == k) with
  | some e =>
      (some e.2,
        { c with cache := c.cache.filter (fun x => !(x.1 == k)) ++ [(k, e.2)] })
  | none => (none, c)

/-- `set` (lines 27-37): an existing key is deleted and re-appended
(recency update); otherwise, when the cache is at capacity, the oldest
(first) entry is removed; the new entry is appended at the end. -/
def LRUCache.set {K V : Type} [BEq K] (c : LRUCache K V) (k : K) (v : V) :
    LRUCache K V :=
  if c.cache.any (fun e => e.1 == k) then
    { c with cache := c.cache.filter (fun x => !(x.1 == k)) ++ [(k, v)] }
  else if c.maxSize ≤ c.cache.length then
    { c with cache := c.cache.drop 1 ++ [(k, v)] }
  else
    { c with cache := c.cache ++ [(k, v)] }

/-- `clear` (lines 39-41). -/
def LRUCache.clear {K V : Type} (c : LRUCache K V) : LRUCache K V :=
  { c with cache := [] }

/-- `size` (lines 43-45). -/
def LRUCache.size {K V : Type} (c : LRUCache K V) : Nat :=
  c.cache.length

/-- Cache configuration constants of `src/lib/embeddingCache.ts`. -/
def CACHE_MAX_SIZE : Nat := 1000

def CACHE_TTL_MS : Nat := 5 * 60 * 1000

/-- A cache entry: the embedding and its insertion timestamp. -/
structure CacheEntry where
  embedding : List Rat
  timestamp : Nat
deriving DecidableEq, Repr

/-- The cache key normalization of `embedText`:
`text.trim().toLowerCase()`, implemented over the underlying character
list (leading and trailing whitespace stripped, characters lowercased). -/
def normalizeKey (s : String) : String :=
  String.mk (((s.data.dropWhile Char.isWhitespace).reverse.dropWhile
    Char.isWhitespace).reverse.map Char.toLower)

/-- The cached `embedText` (`src/lib/embeddingCache.ts` lines 80-103).
The global cache instance becomes an explicit argument and result;
`Date.now()` becomes `now`; the underlying `_embedText` model call is the
pure `model` parameter.  The cache key is the trimmed, lowercased text;
a hit younger than the TTL returns the cached vector, anything else
invokes the model and stores the result. -/
def embedText (model : String → List Rat) (ttl : Nat) (now : Nat)
    (c : LRUCache String CacheEntry) (text : String) :
    List Rat × LRUCache String CacheEntry :=
  let cacheKey := normalizeKey text
  let res := LRUCache.get c cacheKey
  match res.1 with
  | some cached =>
      if now - cached.timestamp < ttl then
        (cached.embedding, res.2)
      else
        let embedding := model text
        (embedding,
          LRUCache.set res.2 cacheKey
            { embedding := embedding, timestamp := now })
  | none =>
      let embedding := model text
      (embedding,
        LRUCache.set res.2 cacheKey
          { embedding := embedding, timestamp := now })

/-- A sequence of `embedText` calls (text and wall-clock instant each)
threaded through the cache; every state reachable from the empty cache is
of this form. -/
def runEmbedCalls (model : String → List Rat) (ttl : Nat)
    (calls : List (String × Nat)) (c : LRUCache String CacheEntry) :
    LRUCache String CacheEntry :=
  calls.foldl (fun acc call => (embedText model ttl call.2 acc call.1).2) c

theorem LRUCache.maxSize_set {K V : Type} [BEq K] (c : LRUCache K V) (k : K)
    (v : V) : (c.set k v).maxSize = c.maxSize := by
  unfold LRUCache.set
  split
  · rfl
  · split <;> rfl

theorem LRUCache.set_fresh_append {K V : Type} [BEq K] [LawfulBEq K]
    (c : LRUCache K V) (k : K) (v : V)
    (hfresh : ∀ e ∈ c.cache, ¬ e.1 = k) (hlen : c.cache.length < c.maxSize) :
    (c.set k v).cache = c.cache ++ [(k, v)] := by
  unfold LRUCache.set
  rw [if_neg, if_neg]
  · omega
  · intro hany
    obtain ⟨e, he, hbe⟩ := List.any_eq_true.mp hany
    exact hfresh e he (eq_of_beq hbe)

theorem LRUCache.set_fresh_evict {K V : Type} [BEq K] [LawfulBEq K]
    (c : LRUCache K V) (k : K) (v : V)
    (hfresh : ∀ e ∈ c.cache, ¬ e.1 = k) (hlen : c.maxSize ≤ c.cache.length) :
    (c.set k v).cache = c.cache.drop 1 ++ [(k, v)] := by
  unfold LRUCache.set
  rw [if_neg, if_pos hlen]
  intro hany
  obtain ⟨e, he, hbe⟩ := List.any_eq_true.mp hany
  exact hfresh e he (eq_of_beq hbe)

theorem LRUCache.get_fst {K V : Type} [BEq K] (c : LRUCache K V) (k : K) :
    (c.get k).1 = (c.cache.find? (fun e => e.1 == k)).map (fun e => e.2) := by
  unfold LRUCache.get
  cases c.cache.find? (fun e => e.1 == k) <;> rfl

theorem LRUCache.get_miss {K V : Type} [BEq K] [LawfulBEq K]
    (c : LRUCache K V) (k : K) (hfresh : ∀ e ∈ c.cache, ¬ e.1 = k) :
    c.get k = (none, c) := by
  unfold LRUCache.get
  have hnone : c.cache.find? (fun e => e.1 == k) = none := by
    rw [List.find?_eq_none]
    intro e he
    simpa using hfresh e he
  rw [hnone]

theorem LRUCache.get_head {K V : Type} [BEq K] [LawfulBEq K] (m : Nat)
    (k : K) (v : V) (t : List (K × V)) (hfresh : ∀ e ∈ t, ¬ e.1 = k) :
    (LRUCache.get { cache := (k, v) :: t, maxSize := m } k) =
      (some v, { cache := t ++ [(k, v)], maxSize := m }) := by
  unfold LRUCache.get
  have hfind : ((k, v) :: t).find? (fun e => e.1 == k) = some (k, v) := by
    rw [List.find?_cons_of_pos]
    simp
  rw [hfind]
  have hfil : ((k, v) :: t).filter (fun x => !(x.1 == k)) = t := by
    rw [List.filter_cons_of_neg]
    · rw [List.filter_eq_self]
      intro e he
      simpa using hfresh e he
    · simp
  dsimp only
  rw [hfil]

/-- Insert a batch of entries through `set`, in order. -/
def insertAll {K V : Type} [BEq K] (c : LRUCache K V)
    (es : List (K × V)) : LRUCache K V :=
  es.foldl (fun acc e => acc.set e.1 e.2) c

theorem insertAll_fresh {K V : Type} [BEq K] [LawfulBEq K]
    (es : List (K × V)) (c : LRUCache K V)
    (hnodup : (c.cache.map Prod.fst ++ es.map Prod.fst).Nodup)
    (hlen : c.cache.length + es.length ≤ c.maxSize) :
    (insertAll c es).cache = c.cache ++ es ∧
      (insertAll c es).maxSize = c.maxSize := by
  induction es generalizing c with
  | nil => simp [insertAll]
  | cons e rest ih =>
      have hdisj : List.Disjoint (c.cache.map Prod.fst)
          ((e :: rest).map Prod.fst) :=
        List.disjoint_of_nodup_append hnodup
      have hfresh : ∀ x ∈ c.cache, ¬ x.1 = e.1 := by
        intro x hx heq
        exact hdisj (List.mem_map_of_mem Prod.fst hx) (by rw [heq]; simp)
      have hstep : (c.set e.1 e.2).cache = c.cache ++ [e] := by
        have := LRUCache.set_fresh_append c e.1 e.2 hfresh (by simp at hlen; omega)
        simpa using this
      have hmax : (c.set e.1 e.2).maxSize = c.maxSize :=
        LRUCache.maxSize_set c e.1 e.2
      have hnodup2 : ((c.set e.1 e.2).cache.map Prod.fst ++
          rest.map Prod.fst).Nodup := by
        rw [hstep, List.map_append, List.append_assoc]
        simpa using hnodup
      have hlen2 : (c.set e.1 e.2).cache.length + rest.length ≤
          (c.set e.1 e.2).maxSize := by
        rw [hstep, hmax]
        simp at hlen ⊢
        omega
      obtain ⟨hc, hm⟩ := ih (c.set e.1 e.2) hnodup2 hlen2
      refine ⟨?_, by rw [show insertAll c (e :: rest) =
        insertAll (c.set e.1 e.2) rest from rfl, hm, hmax]⟩
      rw [show insertAll c (e :: rest) = insertAll (c.set e.1 e.2) rest from rfl,
        hc, hstep, List.append_assoc]
      rfl

theorem LRUCache.eq_mk {K V : Type} (c : LRUCache K V) {l : List (K × V)}
    {m : Nat} (h1 : c.cache = l) (h2 : c.maxSize = m) :
    c = { cache := l, maxSize := m } := by
  cases c
  cases h1
  cases h2
  rfl

/-- C8 (amended): inserting `N + 1` distinct keys into an LRU cache of
capacity `N ≥ 1` evicts exactly the least-recently-used (first) key and
no other; a subsequent `get` on the evicted key misses; and, for
`N ≥ 2`, recency updates on reads protect a key read just before the
`(N+1)`-th insert: the second-oldest key is evicted instead.  (For
`N = 1` the read key is necessarily evicted — see the counterexample.) -/
theorem C8_lru_eviction {K V : Type} [BEq K] [LawfulBEq K] (e0 : K × V)
    (mid : List (K × V)) (last : K × V) (N : Nat) (_hN : 1 ≤ N)
    (hlen : (e0 :: (mid ++ [last])).length = N + 1)
    (hnodup : ((e0 :: (mid ++ [last])).map Prod.fst).Nodup) :
    (insertAll (emptyLRU K V N) (e0 :: (mid ++ [last]))).cache =
      mid ++ [last] ∧
    ((insertAll (emptyLRU K V N) (e0 :: (mid ++ [last]))).get e0.1).1 =
      none ∧
    (2 ≤ N →
      ((((insertAll (emptyLRU K V N) (e0 :: mid)).get e0.1).2.set last.1
          last.2).cache = mid.drop 1 ++ [e0, last] ∧
        (((((insertAll (emptyLRU K V N) (e0 :: mid)).get e0.1).2.set last.1
          last.2).get e0.1).1 = some e0.2))) := by
  obtain ⟨k0, v0⟩ := e0
  obtain ⟨kl, vl⟩ := last
  have hmid : mid.length + 1 = N := by
    simp at hlen
    omega
  have hnd : (k0 :: (mid.map Prod.fst ++ [kl])).Nodup := by
    simpa using hnodup
  have he0 : k0 ∉ mid.map Prod.fst ++ [kl] := (List.nodup_cons.mp hnd).1
  have hndrest : (mid.map Prod.fst ++ [kl]).Nodup := (List.nodup_cons.mp hnd).2
  have he0mid : k0 ∉ mid.map Prod.fst :=
    fun h => he0 (List.mem_append_left _ h)
  have he0last : ¬ k0 = kl := by
    intro h
    exact he0 (List.mem_append_right _ (by rw [h]; exact List.mem_singleton_self _))
  have hlastmid : kl ∉ mid.map Prod.fst := by
    intro h
    exact List.disjoint_of_nodup_append hndrest h (List.mem_singleton_self _)
  have hfreshmid : ∀ x ∈ mid, ¬ x.1 = k0 := by
    intro x hx h
    exact he0mid (h ▸ List.mem_map_of_mem Prod.fst hx)
  have hc1 : insertAll (emptyLRU K V N) ((k0, v0) :: mid) =
      { cache := (k0, v0) :: mid, maxSize := N } := by
    obtain ⟨hc, hm⟩ := insertAll_fresh ((k0, v0) :: mid) (emptyLRU K V N)
      (by
        simp only [emptyLRU, List.map_nil, List.nil_append, List.map_cons]
        rw [List.nodup_cons]
        exact ⟨he0mid, hndrest.of_append_left⟩)
      (by simp [emptyLRU]; omega)
    exact LRUCache.eq_mk _ (by simpa using hc) (by simpa [emptyLRU] using hm)
  have hsplit : insertAll (emptyLRU K V N) ((k0, v0) :: (mid ++ [(kl, vl)])) =
      (insertAll (emptyLRU K V N) ((k0, v0) :: mid)).set kl vl := by
    show insertAll (emptyLRU K V N) (((k0, v0) :: mid) ++ [(kl, vl)]) = _
    unfold insertAll
    rw [List.foldl_append]
    rfl
  have hfresh1 : ∀ x ∈ (k0, v0) :: mid, ¬ x.1 = kl := by
    intro x hx h
    rcases List.mem_cons.mp hx with rfl | hx
    · exact he0last h
    · exact hlastmid (h ▸ List.mem_map_of_mem Prod.fst hx)
  have hcache1 : ((insertAll (emptyLRU K V N) ((k0, v0) :: mid)).set kl
      vl).cache = mid ++ [(kl, vl)] := by
    rw [hc1]
    rw [LRUCache.set_fresh_evict _ _ _ hfresh1 (by simp; omega)]
    rfl
  have hmax1 : ((insertAll (emptyLRU K V N) ((k0, v0) :: mid)).set kl
      vl).maxSize = N := by
    rw [LRUCache.maxSize_set, hc1]
  have hfull : insertAll (emptyLRU K V N) ((k0, v0) :: (mid ++ [(kl, vl)])) =
      { cache := mid ++ [(kl, vl)], maxSize := N } := by
    rw [hsplit]
    exact LRUCache.eq_mk _ hcache1 hmax1
  have hfresh2 : ∀ x ∈ mid ++ [(kl, vl)], ¬ x.1 = k0 := by
    intro x hx h
    rcases List.mem_append.mp hx with hx | hx
    · exact hfreshmid x hx h
    · rw [List.mem_singleton] at hx
      subst hx
      exact he0last h.symm
  refine ⟨by rw [hfull], ?_, ?_⟩
  · rw [hfull, LRUCache.get_miss _ _ hfresh2]
  · intro h2
    have hmidlen : 1 ≤ mid.length := by omega
    have hget2 : ((insertAll (emptyLRU K V N) ((k0, v0) :: mid)).get k0).2 =
        { cache := mid ++ [(k0, v0)], maxSize := N } := by
      rw [hc1, LRUCache.get_head N k0 v0 mid hfreshmid]
    have hfresh3 : ∀ x ∈ mid ++ [(k0, v0)], ¬ x.1 = kl := by
      intro x hx h
      rcases List.mem_append.mp hx with hx | hx
      · exact hlastmid (h ▸ List.mem_map_of_mem Prod.fst hx)
      · rw [List.mem_singleton] at hx
        subst hx
        exact he0last h
    have hset3 : (({ cache := mid ++ [(k0, v0)], maxSize := N } :
        LRUCache K V).set kl vl).cache = mid.drop 1 ++ [(k0, v0), (kl, vl)] := by
      rw [LRUCache.set_fresh_evict _ _ _ hfresh3 (by simp; omega)]
      dsimp only
      rw [List.drop_append_of_le_length hmidlen, List.append_assoc]
      rfl
    have hmax3 : (({ cache := mid ++ [(k0, v0)], maxSize := N } :
        LRUCache K V).set kl vl).maxSize = N := by
      rw [LRUCache.maxSize_set]
    constructor
    · rw [hget2]
      exact hset3
    · rw [hget2, LRUCache.eq_mk _ hset3 hmax3, LRUCache.get_fst]
      have hnone : (mid.drop 1).find? (fun e => e.1 == k0) = none := by
        rw [List.find?_eq_none]
        intro x hx
        simpa using hfreshmid x (List.mem_of_mem_drop hx)
      show ((mid.drop 1 ++ [(k0, v0), (kl, vl)]).find?
          (fun e => e.1 == k0)).map (fun e => e.2) = some v0
      rw [List.find?_append, hnone, Option.none_or,
        List.find?_cons_of_pos _ (by simp)]
      rfl

theorem C8_witness :
    (insertAll (emptyLRU String Nat 2) [("a", 0), ("b", 1), ("c", 2)]).cache =
      [("b", 1), ("c", 2)] ∧
    ((insertAll (emptyLRU String Nat 2)
        [("a", 0), ("b", 1), ("c", 2)]).get "a").1 = none ∧
    ((((insertAll (emptyLRU String Nat 2) [("a", 0), ("b", 1)]).get "a").2.set
        "c" 2).cache = [("a", 0), ("c", 2)] ∧
      (((((insertAll (emptyLRU String Nat 2) [("a", 0), ("b", 1)]).get
        "a").2.set "c" 2).get "a").1 = some 0)) := by
  have h := C8_lru_eviction ("a", 0) [("b", 1)] ("c", 2) 2 (by decide)
    (by decide) (by decide)
  exact ⟨h.1, h.2.1, h.2.2 (by decide)⟩

/-- C8 fails as stated for capacity 1: after inserting key "a", reading
it, and inserting the distinct key "b", the just-read key "a" has been
evicted all the same — with a single slot, the key read just before the
`(N+1)`-th insert is exactly the one evicted. -/
theorem C8_counterexample :
    (((((emptyLRU String Nat 1).set "a" 0).get "a").2.set "b" 1).get
      "a").1 = none := by
  rfl

theorem embedText_eq_hit (model : String → List Rat) (ttl now : Nat)
    (c : LRUCache String CacheEntry) (text : String) (cached : CacheEntry)
    (hv : (LRUCache.get c (normalizeKey text)).1 = some cached)
    (hfresh : now - cached.timestamp < ttl) :
    embedText model ttl now c text =
      (cached.embedding, (LRUCache.get c (normalizeKey text)).2) := by
  unfold embedText
  dsimp only
  rw [hv]
  simp [hfresh]

theorem embedText_eq_stale (model : String → List Rat) (ttl now : Nat)
    (c : LRUCache String CacheEntry) (text : String) (cached : CacheEntry)
    (hv : (LRUCache.get c (normalizeKey text)).1 = some cached)
    (hstale : ¬ now - cached.timestamp < ttl) :
    embedText model ttl now c text =
      (model text, LRUCache.set (LRUCache.get c (normalizeKey text)).2
        (normalizeKey text) { embedding := model text, timestamp := now }) := by
  unfold embedText
  dsimp only
  rw [hv]
  simp [hstale]

theorem embedText_eq_miss (model : String → List Rat) (ttl now : Nat)
    (c : LRUCache String CacheEntry) (text : String)
    (hv : (LRUCache.get c (normalizeKey text)).1 = none) :
    embedText model ttl now c text =
      (model text, LRUCache.set (LRUCache.get c (normalizeKey text)).2
        (normalizeKey text) { embedding := model text, timestamp := now }) := by
  unfold embedText
  dsimp only
  rw [hv]

theorem LRUCache.mem_get_snd {K V : Type} [BEq K] [LawfulBEq K]
    {c : LRUCache K V} {k : K} {e : K × V}
    (he : e ∈ (c.get k).2.cache) : e ∈ c.cache := by
  unfold LRUCache.get at he
  cases hf : c.cache.find? (fun x => x.1 == k) with
  | none => rw [hf] at he; exact he
  | some a =>
      rw [hf] at he
      dsimp only at he
      rcases List.mem_append.mp he with h | h
      · exact List.mem_of_mem_filter h
      · rw [List.mem_singleton] at h
        subst h
        have hka : a.1 = k := by
          have := List.find?_some hf
          simpa using this
        have ham : a ∈ c.cache := List.mem_of_find?_eq_some hf
        rw [← hka]
        exact ham

theorem LRUCache.mem_set {K V : Type} [BEq K] {c : LRUCache K V} {k : K}
    {v : V} {e : K × V} (he : e ∈ (c.set k v).cache) :
    e ∈ c.cache ∨ e = (k, v) := by
  unfold LRUCache.set at he
  split at he
  · dsimp only at he
    rcases List.mem_append.mp he with h | h
    · exact Or.inl (List.mem_of_mem_filter h)
    · exact Or.inr (List.mem_singleton.mp h)
  · split at he
    · dsimp only at he
      rcases List.mem_append.mp he with h | h
      · exact Or.inl (List.mem_of_mem_drop h)
      · exact Or.inr (List.mem_singleton.mp h)
    · dsimp only at he
      rcases List.mem_append.mp he with h | h
      · exact Or.inl h
      · exact Or.inr (List.mem_singleton.mp h)

theorem LRUCache.get_fst_some {K V : Type} [BEq K] [LawfulBEq K]
    {c : LRUCache K V} {k : K} {v : V} (h : (c.get k).1 = some v) :
    ∃ a ∈ c.cache, a.1 = k ∧ a.2 = v := by
  rw [LRUCache.get_fst] at h
  cases hf : c.cache.find? (fun e => e.1 == k) with
  | none => rw [hf] at h; cases h
  | some a =>
      rw [hf] at h
      have hv : a.2 = v := by
        simpa using h
      exact ⟨a, List.mem_of_find?_eq_some hf,
        by simpa using List.find?_some hf, hv⟩

/-- The invariant of every cache state reachable through `embedText`:
each entry's key is the normalization of some text whose model embedding
is the stored vector. -/
def CacheConsistent (model : String → List Rat)
    (c : LRUCache String CacheEntry) : Prop :=
  ∀ e ∈ c.cache, ∃ t : String,
    normalizeKey t = e.1 ∧ e.2.embedding = model t

theorem embedText_fst (model : String → List Rat) (ttl now : Nat)
    (c : LRUCache String CacheEntry) (text : String)
    (hc : CacheConsistent model c)
    (hinv : ∀ s t : String, normalizeKey s = normalizeKey t →
      model s = model t) :
    (embedText model ttl now c text).1 = model text := by
  cases hv : (LRUCache.get c (normalizeKey text)).1 with
  | none => rw [embedText_eq_miss model ttl now c text hv]
  | some cached =>
      by_cases hfresh : now - cached.timestamp < ttl
      · rw [embedText_eq_hit model ttl now c text cached hv hfresh]
        obtain ⟨a, ham, hak, hav⟩ := LRUCache.get_fst_some hv
        obtain ⟨t, ht1, ht2⟩ := hc a ham
        show cached.embedding = model text
        rw [← hav, ht2]
        exact hinv t text (by rw [ht1, hak])
      · rw [embedText_eq_stale model ttl now c text cached hv hfresh]

theorem cacheConsistent_embedText (model : String → List Rat) (ttl now : Nat)
    (c : LRUCache String CacheEntry) (text : String)
    (hc : CacheConsistent model c) :
    CacheConsistent model (embedText model ttl now c text).2 := by
  have hc1 : CacheConsistent model (LRUCache.get c (normalizeKey text)).2 :=
    fun e he => hc e (LRUCache.mem_get_snd he)
  cases hv : (LRUCache.get c (normalizeKey text)).1 with
  | none =>
      rw [embedText_eq_miss model ttl now c text hv]
      intro e he
      rcases LRUCache.mem_set he with h | h
      · exact hc1 e h
      · subst h
        exact ⟨text, rfl, rfl⟩
  | some cached =>
      by_cases hfresh : now - cached.timestamp < ttl
      · rw [embedText_eq_hit model ttl now c text cached hv hfresh]
        exact hc1
      · rw [embedText_eq_stale model ttl now c text cached hv hfresh]
        intro e he
        rcases LRUCache.mem_set he with h | h
        · exact hc1 e h
        · subst h
          exact ⟨text, rfl, rfl⟩

theorem cacheConsistent_runEmbedCalls (model : String → List Rat) (ttl : Nat)
    (calls : List (String × Nat)) (c : LRUCache String CacheEntry)
    (hc : CacheConsistent model c) :
    CacheConsistent model (runEmbedCalls model ttl calls c) := by
  induction calls generalizing c with
  | nil => exact hc
  | cons call rest ih =>
      exact ih _ (cacheConsistent_embedText model ttl call.2 c call.1 hc)

/-- C4 (amended): for an embedding function that is deterministic and
invariant under the cache's key normalization (agreeing on any two texts
with the same trimmed, lowercased form), `embedText` run against any
cache state reachable by prior `embedText` calls returns the very vector
a cold (empty) cache would produce — the cache never changes results.
Without the normalization-invariance assumption the property fails (see
the counterexample): the cache conflates case-variant texts that the
model may distinguish. -/
theorem C4_cache_transparency (model : String → List Rat) (ttl sz : Nat)
    (calls : List (String × Nat)) (now nowCold : Nat) (text : String)
    (hinv : ∀ s t : String, normalizeKey s = normalizeKey t →
      model s = model t) :
    (embedText model ttl now
        (runEmbedCalls model ttl calls (emptyLRU String CacheEntry sz))
        text).1 =
      (embedText model ttl nowCold (emptyLRU String CacheEntry sz) text).1 := by
  have hempty : CacheConsistent model (emptyLRU String CacheEntry sz) := by
    intro e he
    cases he
  rw [embedText_fst model ttl now _ text
      (cacheConsistent_runEmbedCalls model ttl calls _ hempty) hinv,
    embedText_fst model ttl nowCold _ text hempty hinv]

/-- A deterministic embedding function that distinguishes the texts "A"
and "a", which the cache key normalization conflates. -/
def caseSensitiveModel : String → List Rat :=
  fun t => if t = "A" then [1] else [0]

/-- C4 fails as stated: with a deterministic embedding function that is
case-sensitive, a prior `embedText ("A")` call leaves a cache entry under
the normalized key "a", so `embedText ("a")` against the warm cache
returns the vector for "A" while a cold cache returns the vector for
"a" — cache presence changes the result. -/
theorem C4_counterexample :
    (embedText caseSensitiveModel CACHE_TTL_MS 0
        (runEmbedCalls caseSensitiveModel CACHE_TTL_MS [("A", 0)]
          (emptyLRU String CacheEntry CACHE_MAX_SIZE)) "a").1 ≠
      (embedText caseSensitiveModel CACHE_TTL_MS 0
        (emptyLRU String CacheEntry CACHE_MAX_SIZE) "a").1 := by
  decide

theorem C4_witness :
    (embedText (fun _ => ([1] : List Rat)) CACHE_TTL_MS 1
        (runEmbedCalls (fun _ => ([1] : List Rat)) CACHE_TTL_MS [("hi", 0)]
          (emptyLRU String CacheEntry CACHE_MAX_SIZE)) "yo").1 =
      (embedText (fun _ => ([1] : List Rat)) CACHE_TTL_MS 2
        (emptyLRU String CacheEntry CACHE_MAX_SIZE) "yo").1 :=
  C4_cache_transparency (fun _ => ([1] : List Rat)) CACHE_TTL_MS
    CACHE_MAX_SIZE [("hi", 0)] 1 2 "yo" (fun _ _ _ => rfl)

/-- The four values of the `status` column of `indexing_jobs`
("pending", "processing", "completed", "failed"). -/
inductive JobStatus where
  | pending
  | processing
  | completed
  | failed
deriving DecidableEq, Repr

/-- A row of the `indexing_jobs` table (`src/lib/schema.ts` lines
221-243). -/
structure JobRow where
  id : Nat
  userId : String
  jobType : String
  status : JobStatus
  payload : String
  retryCount : Nat
  maxRetries : Nat
  error : Option String
  createdAt : Nat
  updatedAt : Nat
  processedAt : Option Nat
deriving DecidableEq, Repr

/-- The `indexing_jobs` table with its serial-id counter. -/
structure JobQueue where
  rows : List JobRow
  nextId : Nat
deriving DecidableEq, Repr

def emptyJobQueue : JobQueue :=
  { rows := [], nextId := 1 }

/-- The columns selected by `processNextJob` and
`processPendingJobsForUser` and handed to `processJob`. -/
structure SelectedJob where
  id : Nat
  jobType : String
  payload : String
  retryCount : Nat
  maxRetries : Nat
deriving DecidableEq, Repr

def toSelected (r : JobRow) : SelectedJob :=
  { id := r.id, jobType := r.jobType, payload := r.payload,
    retryCount := r.retryCount, maxRetries := r.maxRetries }

/-- `enqueueJob` (`src/unnamed/part_000` lines 201-212): insert a pending
job; `retry_count` (0), `max_retries` (3) and the timestamps take the
schema defaults. -/
def enqueueJob (q : JobQueue) (userId jobType payload : String)
    (now : Nat) : JobQueue :=
  let newRow : JobRow :=
    { id := q.nextId, userId := userId, jobType := jobType,
      status := JobStatus.pending, payload := payload, retryCount := 0,
      maxRetries := 3, error := none, createdAt := now, updatedAt := now,
      processedAt := none }
  { rows := q.rows ++ [newRow], nextId := q.nextId + 1 }

/-- `UPDATE indexing_jobs SET ... WHERE id = i`. -/
def updateById (q : JobQueue) (i : Nat) (f : JobRow → JobRow) : JobQueue :=
  { q with rows := q.rows.map (fun r => if r.id == i then f r else r) }

/-- `processJob` (`src/unnamed/part_000` lines 214-275).  The
`switch (job.jobType)` dispatch into the four handlers (or the
unknown-job-type throw) is abstracted as `exec`, which either succeeds or
fails with an error message.  Success marks the job completed with
`processed_at` set; failure increments the retry count, then either
re-queues the job as pending or, once the count reaches `max_retries`,
marks it failed with the error message recorded. -/
def processJob (exec : SelectedJob → Except String Unit) (now : Nat)
    (q : JobQueue) (job : SelectedJob) : JobQueue :=
  match exec job with
  | Except.ok _ =>
      updateById q job.id (fun r =>
        { r with status := JobStatus.completed, processedAt := some now,
                 updatedAt := now })
  | Except.error msg =>
      let newRetryCount := job.retryCount + 1
      if job.maxRetries ≤ newRetryCount then
        updateById q job.id (fun r =>
          { r with status := JobStatus.failed, error := some msg,
                   retryCount := newRetryCount, updatedAt := now })
      else
        updateById q job.id (fun r =>
          { r with status := JobStatus.pending, error := some msg,
                   retryCount := newRetryCount, updatedAt := now })

/-- The `SELECT ... WHERE status = 'pending' ORDER BY created_at LIMIT 1`
of `processNextJob` (lines 279-290): the first pending row of minimal
`created_at`, ties resolved by table order. -/
def selectOldestPending (q : JobQueue) : Option JobRow :=
  (q.rows.filter (fun r => r.status == JobStatus.pending)).foldl
    (fun acc r =>
      match acc with
      | none => some r
      | some b => if r.createdAt < b.createdAt then some r else acc) none

/-- The claim step of `processNextJob` (lines 296-300): an update guarded
only by the job id — `WHERE id = job.id` — with no pending-status
predicate and no affected-row check. -/
def claimStep (q : JobQueue) (i : Nat) (now : Nat) : JobQueue :=
  updateById q i (fun r =>
    { r with status := JobStatus.processing, updatedAt := now })

/-- `processNextJob` (lines 277-304): select the oldest pending job; if
none, report false; otherwise mark it processing and run `processJob`. -/
def processNextJob (exec : SelectedJob → Except String Unit) (now : Nat)
    (q : JobQueue) : Bool × JobQueue :=
  match selectOldestPending q with
  | none => (false, q)
  | some job =>
      (true, processJob exec now (claimStep q job.id now) (toSelected job))

/-- The per-user variant of the pending-job selection
(`processPendingJobsForUser`, lines 315-326). -/
def selectOldestPendingForUser (q : JobQueue) (userId : String) :
    Option JobRow :=
  (q.rows.filter (fun r =>
    r.userId == userId && r.status == JobStatus.pending)).foldl
    (fun acc r =>
      match acc with
      | none => some r
      | some b => if r.createdAt < b.createdAt then some r else acc) none

/-- One iteration of the `while (true)` loop of
`processPendingJobsForUser` (lines 310-347): select the user's oldest
pending job and, when one exists, claim it and process it.  The loop
itself is the iteration of this step until the selection is empty. -/
def processPendingForUserStep (exec : SelectedJob → Except String Unit)
    (userId : String) (now : Nat) (q : JobQueue) : JobQueue :=
  match selectOldestPendingForUser q userId with
  | none => q
  | some job => processJob exec now (claimStep q job.id now) (toSelected job)

/-- `cleanupOldJobs` (lines 378-392): delete completed/failed jobs whose
`updated_at` is older than the cutoff. -/
def cleanupOldJobs (q : JobQueue) (cutoff : Nat) : JobQueue :=
  { q with rows := q.rows.filter (fun r =>
      !((r.status == JobStatus.completed || r.status == JobStatus.failed) &&
        decide (r.updatedAt < cutoff))) }

/-- The write operations of the job queue, for stating properties of
arbitrary operation sequences. -/
inductive QueueOp where
  | enqueue (userId jobType payload : String) (now : Nat)
  | processNext (exec : SelectedJob → Except String Unit) (now : Nat)
  | drainStep (userId : String) (exec : SelectedJob → Except String Unit)
      (now : Nat)
  | cleanup (cutoff : Nat)

def applyOp (q : JobQueue) : QueueOp → JobQueue
  | QueueOp.enqueue userId jobType payload now =>
      enqueueJob q userId jobType payload now
  | QueueOp.processNext exec now => (processNextJob exec now q).2
  | QueueOp.drainStep userId exec now =>
      processPendingForUserStep exec userId now q
  | QueueOp.cleanup cutoff => cleanupOldJobs q cutoff

def applyOps (q : JobQueue) (ops : List QueueOp) : JobQueue :=
  ops.foldl applyOp q

/-- `SELECT * FROM indexing_jobs WHERE id = i`. -/
def findJob (q : JobQueue) (i : Nat) : Option JobRow :=
  q.rows.find? (fun r => r.id == i)

/-- Well-formedness maintained by the serial primary key: ids are unique
and below the next serial value. -/
def WellFormedQueue (q : JobQueue) : Prop :=
  (q.rows.map JobRow.id).Nodup ∧ ∀ r ∈ q.rows, r.id < q.nextId

/-- The background-loop iteration: `k` successive `processNextJob`
calls, as `startJobProcessor`'s loop performs. -/
def iterateProcess (exec : SelectedJob → Except String Unit) (now : Nat) :
    Nat → JobQueue → JobQueue
  | 0, q => q
  | Nat.succ k, q => iterateProcess exec now k (processNextJob exec now q).2

theorem foldlMin_mem :
    ∀ (l : List JobRow) (acc : Option JobRow) (r : JobRow),
      l.foldl (fun acc r =>
        match acc with
        | none => some r
        | some b => if r.createdAt < b.createdAt then some r else acc)
        acc = some r →
      r ∈ l ∨ acc = some r := by
  intro l
  induction l with
  | nil => exact fun acc r h => Or.inr h
  | cons x rest ih =>
      intro acc r h
      rcases ih _ r h with hmem | hacc
      · exact Or.inl (List.mem_cons_of_mem _ hmem)
      · cases acc with
        | none =>
            dsimp only at hacc
            injection hacc with hx
            exact Or.inl (hx ▸ List.mem_cons_self _ _)
        | some b =>
            dsimp only at hacc
            revert hacc
            split
            · intro hacc
              injection hacc with hx
              exact Or.inl (hx ▸ List.mem_cons_self _ _)
            · intro hacc
              exact Or.inr hacc

theorem selectOldestPending_mem {q : JobQueue} {j : JobRow}
    (h : selectOldestPending q = some j) :
    j ∈ q.rows ∧ j.status = JobStatus.pending := by
  unfold selectOldestPending at h
  rcases foldlMin_mem _ none j h with hmem | hacc
  · have hm := List.mem_filter.mp hmem
    exact ⟨hm.1, by simpa using hm.2⟩
  · cases hacc

theorem selectOldestPendingForUser_mem {q : JobQueue} {u : String}
    {j : JobRow} (h : selectOldestPendingForUser q u = some j) :
    j ∈ q.rows ∧ j.status = JobStatus.pending := by
  unfold selectOldestPendingForUser at h
  rcases foldlMin_mem _ none j h with hmem | hacc
  · have hm := List.mem_filter.mp hmem
    refine ⟨hm.1, ?_⟩
    have := hm.2
    simp only [Bool.and_eq_true, beq_iff_eq] at this
    exact this.2
  · cases hacc

theorem find?_id_map (rows : List JobRow) (i j : Nat) (f : JobRow → JobRow)
    (hf : ∀ r, (f r).id = r.id) (hne : ¬ j = i) :
    (rows.map (fun r => if r.id == i then f r else r)).find?
        (fun r => r.id == j) =
      rows.find? (fun r => r.id == j) := by
  induction rows with
  | nil => rfl
  | cons a rest ih =>
      simp only [List.map_cons]
      have hga : (if a.id == i then f a else a).id = a.id := by
        split
        · exact hf a
        · rfl
      by_cases ha : a.id = j
      · rw [List.find?_cons_of_pos _
            (by show ((if a.id == i then f a else a).id == j) = true
                rw [hga, ha]
                simp),
          List.find?_cons_of_pos _ (by simp [ha])]
        have hai : (a.id == i) = false := by
          simp only [beq_eq_false_iff_ne, Ne]
          rw [ha]
          exact hne
        rw [hai]
        simp
      · rw [List.find?_cons_of_neg _
            (by show ¬ ((if a.id == i then f a else a).id == j) = true
                rw [hga]
                simp [ha]),
          List.find?_cons_of_neg _ (by simp [ha])]
        exact ih

theorem findJob_updateById_ne (q : JobQueue) (i j : Nat) (f : JobRow → JobRow)
    (hf : ∀ r, (f r).id = r.id) (hne : ¬ j = i) :
    findJob (updateById q i f) j = findJob q j :=
  find?_id_map q.rows i j f hf hne

theorem findJob_processJob_ne (exec : SelectedJob → Except String Unit)
    (now : Nat) (q : JobQueue) (job : SelectedJob) (j : Nat)
    (hne : ¬ j = job.id) :
    findJob (processJob exec now q job) j = findJob q j := by
  unfold processJob
  cases exec job with
  | ok _ => exact findJob_updateById_ne q job.id j _ (fun r => rfl) hne
  | error msg =>
      dsimp only
      split
      · exact findJob_updateById_ne q job.id j _ (fun r => rfl) hne
      · exact findJob_updateById_ne q job.id j _ (fun r => rfl) hne

theorem ids_updateById (q : JobQueue) (i : Nat) (f : JobRow → JobRow)
    (hf : ∀ r, (f r).id = r.id) :
    (updateById q i f).rows.map JobRow.id = q.rows.map JobRow.id := by
  unfold updateById
  dsimp only
  rw [List.map_map]
  apply List.map_congr_left
  intro a _
  show (if a.id == i then f a else a).id = a.id
  split
  · exact hf a
  · rfl

theorem nextId_updateById (q : JobQueue) (i : Nat) (f : JobRow → JobRow) :
    (updateById q i f).nextId = q.nextId :=
  rfl

theorem wf_updateById (q : JobQueue) (i : Nat) (f : JobRow → JobRow)
    (hf : ∀ r, (f r).id = r.id) (hq : WellFormedQueue q) :
    WellFormedQueue (updateById q i f) := by
  obtain ⟨h1, h2⟩ := hq
  constructor
  · rw [ids_updateById q i f hf]
    exact h1
  · intro r hr
    unfold updateById at hr
    dsimp only at hr
    obtain ⟨a, ha, rfl⟩ := List.mem_map.mp hr
    show (if a.id == i then f a else a).id < q.nextId
    have hid : (if a.id == i then f a else a).id = a.id := by
      split
      · exact hf a
      · rfl
    rw [hid]
    exact h2 a ha

theorem wf_processJob (exec : SelectedJob → Except String Unit) (now : Nat)
    (q : JobQueue) (job : SelectedJob) (hq : WellFormedQueue q) :
    WellFormedQueue (processJob exec now q job) := by
  unfold processJob
  cases exec job with
  | ok _ => exact wf_updateById q job.id _ (fun r => rfl) hq
  | error msg =>
      dsimp only
      split
      · exact wf_updateById q job.id _ (fun r => rfl) hq
      · exact wf_updateById q job.id _ (fun r => rfl) hq

theorem nextId_processJob (exec : SelectedJob → Except String Unit)
    (now : Nat) (q : JobQueue) (job : SelectedJob) :
    (processJob exec now q job).nextId = q.nextId := by
  unfold processJob
  cases exec job with
  | ok _ => rfl
  | error msg =>
      dsimp only
      split
      · rfl
      · rfl

theorem findJob_of_mem {q : JobQueue} (hq : WellFormedQueue q) {r : JobRow}
    (hr : r ∈ q.rows) : findJob q r.id = some r := by
  unfold findJob
  cases hfind : q.rows.find? (fun x => x.id == r.id) with
  | none =>
      rw [List.find?_eq_none] at hfind
      exact absurd (by simp) (hfind r hr)
  | some a =>
      have ha : a ∈ q.rows := List.mem_of_find?_eq_some hfind
      have haid : a.id = r.id := by
        simpa using List.find?_some hfind
      rw [List.inj_on_of_nodup_map hq.1 ha hr haid]

theorem selectOldestPending_single_pending (j : JobRow) (n : Nat)
    (hp : j.status = JobStatus.pending) :
    selectOldestPending { rows := [j], nextId := n } = some j := by
  unfold selectOldestPending
  have hb : (j.status == JobStatus.pending) = true := by
    rw [hp]
    rfl
  simp [hb]

theorem selectOldestPending_single_failed (j : JobRow) (n : Nat)
    (hp : j.status = JobStatus.failed) :
    selectOldestPending { rows := [j], nextId := n } = none := by
  unfold selectOldestPending
  have hb : (j.status == JobStatus.pending) = false := by
    rw [hp]
    rfl
  simp [hb]

/-- The row written by `processJob`'s failure branch once the incremented
retry count reaches `max_retries`. -/
def failedRow (j : JobRow) (msg : String) (now : Nat) : JobRow :=
  { j with status := JobStatus.failed, error := some msg,
           retryCount := j.retryCount + 1, updatedAt := now }

/-- The row written by `processJob`'s failure branch while retries
remain: re-queued as pending with the retry count incremented. -/
def retriedRow (j : JobRow) (msg : String) (now : Nat) : JobRow :=
  { j with status := JobStatus.pending, error := some msg,
           retryCount := j.retryCount + 1, updatedAt := now }

theorem updateById_single (r : JobRow) (n i : Nat) (f : JobRow → JobRow)
    (h : r.id = i) :
    updateById { rows := [r], nextId := n } i f =
      { rows := [f r], nextId := n } := by
  unfold updateById
  simp [h]

theorem processNextJob_single_fail (exec : SelectedJob → Except String Unit)
    (now : Nat) (j : JobRow) (n : Nat) (msg : String)
    (hp : j.status = JobStatus.pending)
    (hexec : exec (toSelected j) = Except.error msg) :
    (processNextJob exec now { rows := [j], nextId := n }).2 =
      if j.maxRetries ≤ j.retryCount + 1 then
        { rows := [failedRow j msg now], nextId := n }
      else
        { rows := [retriedRow j msg now], nextId := n } := by
  unfold processNextJob
  rw [selectOldestPending_single_pending j n hp]
  dsimp only
  have hclaim : claimStep { rows := [j], nextId := n } j.id now =
      { rows := [{ j with status := JobStatus.processing, updatedAt := now }],
        nextId := n } :=
    updateById_single j n j.id _ rfl
  rw [hclaim]
  unfold processJob
  rw [hexec]
  dsimp only
  by_cases hm : j.maxRetries ≤ j.retryCount + 1
  · rw [if_pos (show (toSelected j).maxRetries ≤ (toSelected j).retryCount + 1
        from hm), if_pos hm]
    unfold updateById
    simp [toSelected, failedRow]
  · rw [if_neg (show ¬ (toSelected j).maxRetries ≤
          (toSelected j).retryCount + 1 from hm), if_neg hm]
    unfold updateById
    simp [toSelected, retriedRow]

/-- The terminal state of a job after retry exhaustion: failed, last
error recorded, retry count at `max_retries`. -/
def exhaustedRow (j : JobRow) (msg : String) (now : Nat) : JobRow :=
  { j with status := JobStatus.failed, error := some msg,
           retryCount := j.maxRetries, updatedAt := now }

theorem singleJob_exhaustion (exec : SelectedJob → Except String Unit)
    (now : Nat) (msg : String) (hexec : ∀ s, exec s = Except.error msg) :
    ∀ (k : Nat) (j : JobRow) (n : Nat), j.status = JobStatus.pending →
      j.retryCount + k = j.maxRetries → 1 ≤ k →
      iterateProcess exec now k { rows := [j], nextId := n } =
        { rows := [exhaustedRow j msg now], nextId := n } := by
  intro k
  induction k with
  | zero => exact fun j n _ _ hk => absurd hk (by omega)
  | succ k ih =>
      intro j n hp hcount _
      show iterateProcess exec now k
        (processNextJob exec now { rows := [j], nextId := n }).2 = _
      rw [processNextJob_single_fail exec now j n msg hp (hexec _)]
      by_cases hm : j.maxRetries ≤ j.retryCount + 1
      · have hk0 : k = 0 := by omega
        subst hk0
        rw [if_pos hm]
        show ({ rows := [failedRow j msg now], nextId := n } : JobQueue) = _
        have harith : j.retryCount + 1 = j.maxRetries := by omega
        simp only [failedRow, exhaustedRow, harith]
      · rw [if_neg hm]
        have hrec := ih (retriedRow j msg now) n rfl
          (by
            show j.retryCount + 1 + k = j.maxRetries
            omega)
          (by omega)
        rw [hrec]
        rfl

/-- Once the row with id `i` can only be failed, it stays that way:
the queue is well formed, `i` stays below the serial counter, and any
row found under id `i` is failed. -/
def FailedLocked (i : Nat) (q : JobQueue) : Prop :=
  WellFormedQueue q ∧ i < q.nextId ∧
    ∀ r, findJob q i = some r → r.status = JobStatus.failed

theorem failedLocked_enqueue (i : Nat) (q : JobQueue) (u jt pl : String)
    (now : Nat) (h : FailedLocked i q) :
    FailedLocked i (enqueueJob q u jt pl now) := by
  obtain ⟨⟨hnd, hbound⟩, hi, hfail⟩ := h
  refine ⟨⟨?_, ?_⟩, by
    show i < q.nextId + 1
    omega, ?_⟩
  · show ((q.rows ++ [_]).map JobRow.id).Nodup
    rw [List.map_append, List.nodup_append]
    refine ⟨hnd, List.nodup_singleton _, ?_⟩
    intro a ha hb
    obtain ⟨r0, hr0, rfl⟩ := List.mem_map.mp ha
    have hlt := hbound r0 hr0
    simp only [List.map_cons, List.map_nil, List.mem_singleton] at hb
    omega
  · intro r hr
    rcases List.mem_append.mp hr with hr | hr
    · have := hbound r hr
      show r.id < q.nextId + 1
      omega
    · rw [List.mem_singleton] at hr
      subst hr
      show q.nextId < q.nextId + 1
      omega
  · intro r hr
    unfold findJob enqueueJob at hr
    dsimp only at hr
    rw [List.find?_append] at hr
    cases hq : q.rows.find? (fun x => x.id == i) with
    | some r0 =>
        rw [hq] at hr
        have hid : some r0 = some r := hr
        injection hid with hid
        rw [← hid]
        exact hfail r0 hq
    | none =>
        rw [hq] at hr
        have hne : (q.nextId == i) = false := by
          simp only [beq_eq_false_iff_ne, Ne]
          omega
        simp only [Option.none_or, List.find?_cons, hne, List.find?_nil] at hr
        cases hr

theorem failedLocked_processSelected (i : Nat) (q : JobQueue)
    (exec : SelectedJob → Except String Unit) (now : Nat) (job : JobRow)
    (hmem : job ∈ q.rows) (hpend : job.status = JobStatus.pending)
    (h : FailedLocked i q) :
    FailedLocked i
      (processJob exec now (claimStep q job.id now) (toSelected job)) := by
  obtain ⟨hwf, hi, hfail⟩ := h
  have hne : ¬ i = job.id := by
    intro he
    have hfind := findJob_of_mem hwf hmem
    rw [← he] at hfind
    have := hfail job hfind
    rw [hpend] at this
    cases this
  have hwf2 : WellFormedQueue (claimStep q job.id now) :=
    wf_updateById q job.id _ (fun r => rfl) hwf
  refine ⟨wf_processJob exec now _ (toSelected job) hwf2, ?_, ?_⟩
  · rw [nextId_processJob]
    exact hi
  · intro r hr
    have hclaim : findJob (claimStep q job.id now) i = findJob q i :=
      findJob_updateById_ne q job.id i _ (fun r => rfl) hne
    rw [findJob_processJob_ne exec now _ (toSelected job) i hne,
      hclaim] at hr
    exact hfail r hr

theorem failedLocked_processNext (i : Nat) (q : JobQueue)
    (exec : SelectedJob → Except String Unit) (now : Nat)
    (h : FailedLocked i q) :
    FailedLocked i (processNextJob exec now q).2 := by
  unfold processNextJob
  cases hsel : selectOldestPending q with
  | none => exact h
  | some job =>
      obtain ⟨hmem, hpend⟩ := selectOldestPending_mem hsel
      exact failedLocked_processSelected i q exec now job hmem hpend h

theorem failedLocked_drainStep (i : Nat) (q : JobQueue) (u : String)
    (exec : SelectedJob → Except String Unit) (now : Nat)
    (h : FailedLocked i q) :
    FailedLocked i (processPendingForUserStep exec u now q) := by
  unfold processPendingForUserStep
  cases hsel : selectOldestPendingForUser q u with
  | none => exact h
  | some job =>
      obtain ⟨hmem, hpend⟩ := selectOldestPendingForUser_mem hsel
      exact failedLocked_processSelected i q exec now job hmem hpend h

theorem failedLocked_cleanup (i : Nat) (q : JobQueue) (cutoff : Nat)
    (h : FailedLocked i q) :
    FailedLocked i (cleanupOldJobs q cutoff) := by
  obtain ⟨⟨hnd, hbound⟩, hi, hfail⟩ := h
  refine ⟨⟨?_, ?_⟩, hi, ?_⟩
  · exact List.Nodup.sublist
      (List.Sublist.map JobRow.id (List.filter_sublist q.rows)) hnd
  · intro r hr
    exact hbound r (List.mem_of_mem_filter hr)
  · intro r hr
    unfold findJob cleanupOldJobs at hr
    dsimp only at hr
    have hmem : r ∈ q.rows :=
      List.mem_of_mem_filter (List.mem_of_find?_eq_some hr)
    have hid : r.id = i := by
      simpa using List.find?_some hr
    have hq := findJob_of_mem ⟨hnd, hbound⟩ hmem
    rw [hid] at hq
    exact hfail r hq

theorem failedLocked_applyOp (i : Nat) (q : JobQueue) (op : QueueOp)
    (h : FailedLocked i q) : FailedLocked i (applyOp q op) := by
  cases op with
  | enqueue u jt pl now => exact failedLocked_enqueue i q u jt pl now h
  | processNext exec now => exact failedLocked_processNext i q exec now h
  | drainStep u exec now => exact failedLocked_drainStep i q u exec now h
  | cleanup cutoff => exact failedLocked_cleanup i q cutoff h

theorem failedLocked_applyOps (i : Nat) (ops : List QueueOp) :
    ∀ q : JobQueue, FailedLocked i q → FailedLocked i (applyOps q ops) := by
  induction ops with
  | nil => exact fun q h => h
  | cons op rest ih =>
      intro q h
      exact ih _ (failedLocked_applyOp i q op h)

/-- C3: (i) with an execution that always fails, a freshly enqueued
pending job (retry count 0, `max_retries ≥ 1`) reaches status `failed`
with the last error message recorded after exactly `max_retries`
`processNextJob` passes, and one further `processNextJob` finds no job;
(ii) the selection of `processNextJob` only ever yields pending jobs, so
a failed job is never picked up; (iii) once the row with a given id is
failed, no sequence of queue operations (enqueue, processNext, the
per-user drain steps, cleanup) ever yields that row with any status
other than failed — failed is terminal and never auto-retried. -/
theorem C3_retry_exhaustion_terminal :
    (∀ (exec : SelectedJob → Except String Unit) (now : Nat) (msg : String)
        (j : JobRow) (n : Nat),
      (∀ s, exec s = Except.error msg) → j.status = JobStatus.pending →
        j.retryCount = 0 → 1 ≤ j.maxRetries →
        iterateProcess exec now j.maxRetries { rows := [j], nextId := n } =
            { rows := [exhaustedRow j msg now], nextId := n } ∧
          (processNextJob exec now
            (iterateProcess exec now j.maxRetries
              { rows := [j], nextId := n })).1 = false) ∧
    (∀ (q : JobQueue) (j : JobRow),
      selectOldestPending q = some j → j.status = JobStatus.pending) ∧
    (∀ (ops : List QueueOp) (q : JobQueue) (i : Nat) (r : JobRow),
      WellFormedQueue q → findJob q i = some r →
        r.status = JobStatus.failed →
        ∀ r', findJob (applyOps q ops) i = some r' →
          r'.status = JobStatus.failed) := by
  refine ⟨?_, ?_, ?_⟩
  · intro exec now msg j n hexec hp hr0 hm
    have hiter := singleJob_exhaustion exec now msg hexec j.maxRetries j n hp
      (by omega) hm
    refine ⟨hiter, ?_⟩
    rw [hiter]
    unfold processNextJob
    rw [selectOldestPending_single_failed _ n rfl]
  · exact fun q j h => (selectOldestPending_mem h).2
  · intro ops q i r hwf hfind hfailed r' hr'
    have h0 : FailedLocked i q := by
      refine ⟨hwf, ?_, ?_⟩
      · have hmem := List.mem_of_find?_eq_some hfind
        have hid : r.id = i := by
          simpa using List.find?_some hfind
        have := hwf.2 r hmem
        omega
      · intro r0 h0
        rw [hfind] at h0
        injection h0 with h0
        rw [← h0]
        exact hfailed
    exact (failedLocked_applyOps i ops q h0).2.2 r' hr'

/-- A freshly enqueued indexing job with the schema defaults. -/
def sampleJob : JobRow :=
  { id := 1, userId := "u", jobType := "index_lore",
    status := JobStatus.pending, payload := "p", retryCount := 0,
    maxRetries := 3, error := none, createdAt := 0, updatedAt := 0,
    processedAt := none }

theorem C3_witness :
    (iterateProcess (fun _ => Except.error "boom") 7 3
          { rows := [sampleJob], nextId := 2 } =
        { rows := [exhaustedRow sampleJob "boom" 7], nextId := 2 } ∧
      (processNextJob (fun _ => Except.error "boom") 7
          (iterateProcess (fun _ => Except.error "boom") 7 3
            { rows := [sampleJob], nextId := 2 })).1 = false) ∧
    sampleJob.status = JobStatus.pending ∧
    (exhaustedRow sampleJob "boom" 7).status = JobStatus.failed := by
  refine ⟨C3_retry_exhaustion_terminal.1 (fun _ => Except.error "boom") 7
      "boom" sampleJob 2 (fun _ => rfl) rfl rfl (by decide), ?_, ?_⟩
  · exact C3_retry_exhaustion_terminal.2.1
      { rows := [sampleJob], nextId := 2 } sampleJob rfl
  · exact C3_retry_exhaustion_terminal.2.2 [QueueOp.cleanup 0]
      { rows := [exhaustedRow sampleJob "boom" 7], nextId := 2 } 1
      (exhaustedRow sampleJob "boom" 7) ⟨by decide, by decide⟩ rfl rfl
      (exhaustedRow sampleJob "boom" 7) rfl

/-- A legal interleaving of two workers running `processNextJob` against
the same store: both execute the select before either executes the claim
step, then each claims and processes its selection in turn.  Returns the
id of the job each worker processed together with the final store. -/
def doubleClaimSchedule (exec : SelectedJob → Except String Unit)
    (now : Nat) (q : JobQueue) : Option Nat × Option Nat × JobQueue :=
  let sel1 := selectOldestPending q
  let sel2 := selectOldestPending q
  match sel1 with
  | none => (none, none, q)
  | some j1 =>
      let q1 := claimStep q j1.id now
      match sel2 with
      | none => (some j1.id, none, processJob exec now q1 (toSelected j1))
      | some j2 =>
          let q2 := claimStep q1 j2.id now
          let q3 := processJob exec now q2 (toSelected j1)
          let q4 := processJob exec now q3 (toSelected j2)
          (some j1.id, some j2.id, q4)

theorem find?_id_map_self (rows : List JobRow) (i : Nat)
    (f : JobRow → JobRow) (hf : ∀ r, (f r).id = r.id) :
    (rows.map (fun r => if r.id == i then f r else r)).find?
        (fun r => r.id == i) =
      (rows.find? (fun r => r.id == i)).map f := by
  induction rows with
  | nil => rfl
  | cons a rest ih =>
      simp only [List.map_cons]
      by_cases ha : a.id = i
      · have hcond : (a.id == i) = true := by simp [ha]
        rw [hcond]
        rw [List.find?_cons_of_pos _
            (by show ((if true = true then f a else a).id == i) = true
                simp [hf a, ha]),
          List.find?_cons_of_pos _ (by simp [ha])]
        rfl
      · have hcond : (a.id == i) = false := by simp [ha]
        rw [hcond]
        rw [List.find?_cons_of_neg _
            (by show ¬ ((if false = true then f a else a).id == i) = true
                simp [ha]),
          List.find?_cons_of_neg _ (by simp [ha])]
        exact ih

/-- C7 (amended): the claim step of `processNextJob` is an update guarded
only by the job id — applied to the row with the selected id it sets the
status to processing whatever that row's current status is — and two
workers that both run the select before either runs the claim step
select, claim and execute the very same job: at-most-once execution is
not guaranteed under concurrent workers. -/
theorem C7_claim_unguarded_double_processing :
    (∀ (q : JobQueue) (i now : Nat) (r : JobRow),
      WellFormedQueue q → r ∈ q.rows → r.id = i →
      findJob (claimStep q i now) i =
        some { r with status := JobStatus.processing, updatedAt := now }) ∧
    (∀ (exec : SelectedJob → Except String Unit) (now : Nat) (q : JobQueue)
        (j : JobRow), selectOldestPending q = some j →
      (doubleClaimSchedule exec now q).1 = some j.id ∧
      (doubleClaimSchedule exec now q).2.1 = some j.id) := by
  constructor
  · intro q i now r hwf hr hid
    have hstep : findJob (claimStep q i now) i =
        (findJob q i).map (fun r =>
          { r with status := JobStatus.processing, updatedAt := now }) :=
      find?_id_map_self q.rows i _ (fun r => rfl)
    rw [hstep, ← hid, findJob_of_mem hwf hr]
    rfl
  · intro exec now q j hsel
    unfold doubleClaimSchedule
    rw [hsel]
    exact ⟨rfl, rfl⟩

/-- A job row already in a terminal (completed) state. -/
def completedJob : JobRow :=
  { id := 1, userId := "u", jobType := "index_lore",
    status := JobStatus.completed, payload := "p", retryCount := 0,
    maxRetries := 3, error := none, createdAt := 0, updatedAt := 0,
    processedAt := some 0 }

/-- A pending job row for the double-claim run. -/
def pendingJob : JobRow :=
  { id := 1, userId := "u", jobType := "index_lore",
    status := JobStatus.pending, payload := "p", retryCount := 0,
    maxRetries := 3, error := none, createdAt := 0, updatedAt := 0,
    processedAt := none }

/-- C7 fails as stated: the claim step carries no pending-status guard —
applied to a store whose only row is already completed it still sets that
row to processing — and under the select-select-claim-claim interleaving
both workers claim and execute the same single pending job, so a job can
be executed by two workers. -/
theorem C7_counterexample :
    (claimStep { rows := [completedJob], nextId := 2 } 1 5).rows.map
        JobRow.status = [JobStatus.processing] ∧
    (doubleClaimSchedule (fun _ => Except.ok ()) 5
        { rows := [pendingJob], nextId := 2 }).1 = some 1 ∧
    (doubleClaimSchedule (fun _ => Except.ok ()) 5
        { rows := [pendingJob], nextId := 2 }).2.1 = some 1 := by
  refine ⟨rfl, rfl, rfl⟩

theorem C7_witness :
    findJob (claimStep { rows := [pendingJob], nextId := 2 } 1 5) 1 =
      some { pendingJob with status := JobStatus.processing, updatedAt := 5 } ∧
    ((doubleClaimSchedule (fun _ => Except.ok ()) 5
        { rows := [pendingJob], nextId := 2 }).1 = some pendingJob.id ∧
      (doubleClaimSchedule (fun _ => Except.ok ()) 5
        { rows := [pendingJob], nextId := 2 }).2.1 = some pendingJob.id) :=
  ⟨C7_claim_unguarded_double_processing.1
      { rows := [pendingJob], nextId := 2 } 1 5 pendingJob
      ⟨by decide, by decide⟩ (by decide) rfl,
    C7_claim_unguarded_double_processing.2 (fun _ => Except.ok ()) 5
      { rows := [pendingJob], nextId := 2 } pendingJob rfl⟩
